import Mathlib

/-!
Verification of the schema-reconstruction transform of the pdf-parser
repository (`src/schema_transformer.py`).  The Python code is embedded
shallowly: strings are `String`/`List Char`, the anchored regular
expressions of `_clean_cell` become deterministic `takeWhile`/`dropWhile`
matchers (all character classes involved are pairwise disjoint, so the
greedy regex semantics coincide with these), `None` becomes `Option`, and
the mutable transformer object becomes an explicit state record threaded
through the page/box fold.  Only the ASCII fragment of Python's `str`
methods is modelled (`\s`, `\d`, `\w`, `str.strip`, `str.lower`,
`str.isalpha`), which covers every string the claims touch.
-/

namespace Pdf

/-- A table cell: Python `None` or a string. -/
abbrev Cell := Option String

/-- A table row. -/
abbrev Row := List Cell

/-! ### Character classes and basic string cleanup -/

/-- Python regex `\s` on ASCII: space, tab, newline, carriage return,
vertical tab, form feed. -/
def isWs (c : Char) : Bool :=
  c = ' ' || c = '\t' || c = '\n' || c = '\r' || c = '\x0b' || c = '\x0c'

/-- The character class `[, .]` of the trailing-strip regex in `_clean_cell`. -/
def isPunctSp (c : Char) : Bool :=
  c = ',' || c = ' ' || c = '.'

/-- Drop trailing whitespace (Python `str.rstrip()`). -/
def rstripWs (l : List Char) : List Char :=
  (l.reverse.dropWhile isWs).reverse

/-- Python `str.strip()` on ASCII whitespace. -/
def stripWs (l : List Char) : List Char :=
  rstripWs (l.dropWhile isWs)

/-- `str.strip()` on `String`. -/
def stripStr (s : String) : String :=
  (stripWs s.data).asString

/-- Worker for `splitNl`: accumulates the current piece reversed. -/
def splitNlAux : List Char → List Char → List (List Char)
  | [], cur => [cur.reverse]
  | c :: rest, cur =>
    if c = '\n' then cur.reverse :: splitNlAux rest []
    else splitNlAux rest (c :: cur)

/-- Python `str.split("\n")`. -/
def splitNl (s : String) : List String :=
  (splitNlAux s.data []).map List.asString

/-- Python `"\n".join`. -/
def joinNl : List String → String
  | [] => ""
  | [s] => s
  | s :: rest => s ++ "\n" ++ joinNl rest

/-- Python `" ".join`. -/
def joinSpace : List String → String
  | [] => ""
  | [s] => s
  | s :: rest => s ++ " " ++ joinSpace rest

/-- `re.sub(r'\n[, .]*\s*$', '', val)`: delete the suffix beginning at the
leftmost newline that is followed only by a run of `[, .]` characters and
then whitespace up to the end of the string.  (A `$` that matches just
before a final newline never adds matches here, because `\n` itself is
`\s`, so the greedy full-suffix match subsumes it.) -/
def stripTrailingNl : List Char → List Char
  | [] => []
  | c :: rest =>
    if c = '\n' ∧ (rest.dropWhile isPunctSp).all isWs then []
    else c :: stripTrailingNl rest

/-- Worker for `collapseWs`: `prevWs` records whether the previous
character was whitespace (in which case further whitespace is dropped
rather than emitting another space). -/
def collapseWsAux (prevWs : Bool) : List Char → List Char
  | [] => []
  | c :: rest =>
    if isWs c then
      if prevWs then collapseWsAux true rest
      else ' ' :: collapseWsAux true rest
    else c :: collapseWsAux false rest

/-- `re.sub(r'\s+', ' ', s)`: collapse every maximal whitespace run into a
single space. -/
def collapseWs (l : List Char) : List Char :=
  collapseWsAux false l

/-! ### The anchored regex matchers of `_clean_cell` -/

/-- `re.match(r'^(\()\$\s*(\d+)\s*(\))$', s)`: a parenthesized dollar
amount; returns the digit run. -/
def parenDollarMatch (l : List Char) : Option (List Char) :=
  match l with
  | c1 :: c2 :: rest =>
    if c1 = '(' ∧ c2 = '$' then
      let r1 := rest.dropWhile isWs
      let ds := r1.takeWhile Char.isDigit
      if ds ≠ [] ∧ (r1.dropWhile Char.isDigit).dropWhile isWs = [')'] then some ds
      else none
    else none
  | _ => none

/-- `re.match(r'^\$\s*(-?)(\d+)$', s)`: a dollar amount with optional
minus sign; returns (negative, digit run). -/
def dollarMatch (l : List Char) : Option (Bool × List Char) :=
  match l with
  | c :: rest =>
    if c = '$' then
      let r1 := rest.dropWhile isWs
      let neg : Bool := decide (r1.head? = some '-')
      let r2 := if r1.head? = some '-' then r1.tail else r1
      let ds := r2.takeWhile Char.isDigit
      if ds ≠ [] ∧ r2.dropWhile Char.isDigit = [] then some (neg, ds) else none
    else none
  | [] => none

/-- `re.match(r'^\$\s*-?\s*0\s*\.?\s*00$', s)`: a literal zero-dollar form. -/
def zeroDollarMatch (l : List Char) : Bool :=
  match l with
  | c :: rest =>
    if c = '$' then
      let r1 := rest.dropWhile isWs
      let r2 := if r1.head? = some '-' then r1.tail else r1
      let r3 := r2.dropWhile isWs
      match r3 with
      | c3 :: r4 =>
        if c3 = '0' then
          let r5 := r4.dropWhile isWs
          let r6 := if r5.head? = some '.' then r5.tail else r5
          let r7 := r6.dropWhile isWs
          decide (r7 = ['0', '0'])
        else false
      | [] => false
    else false
  | [] => false

/-- `re.match(r'^(\d+)%$', s)`: a percentage; returns the digit run. -/
def percentMatch (l : List Char) : Option (List Char) :=
  let ds := l.takeWhile Char.isDigit
  if ds ≠ [] ∧ l.dropWhile Char.isDigit = ['%'] then some ds else none

/-! ### `_fix_dollar` -/

/-- The decimal digit character for `n < 10`. -/
def digitChar (n : Nat) : Char := Char.ofNat (48 + n)

/-- Fueled worker for `natDigits` (`n ≤ fuel` suffices, since `n / 10`
decreases strictly below 10 ≤ n). -/
def natDigitsAux : Nat → Nat → List Char
  | 0, n => [digitChar n]
  | fuel + 1, n =>
    if n < 10 then [digitChar n]
    else natDigitsAux fuel (n / 10) ++ [digitChar (n % 10)]

/-- Decimal digits of a natural number, most significant first (the way
Python prints an `int`, with no leading zeros). -/
def natDigits (n : Nat) : List Char :=
  natDigitsAux n n

/-- Insert thousands separators into a digit list given least-significant
digit first. -/
def insertCommasRev : List Char → List Char
  | a :: b :: c :: d :: rest => a :: b :: c :: ',' :: insertCommasRev (d :: rest)
  | l => l

/-- Python `f"{n:,}"`: decimal rendering with comma grouping. -/
def commaGroup (n : Nat) : List Char :=
  (insertCommasRev (natDigits n).reverse).reverse

/-- Python `int(s)` on a digit run. -/
def digitsToNat (l : List Char) : Nat :=
  l.foldl (fun acc c => acc * 10 + (c.toNat - 48)) 0

/-- Python `str.zfill(2)` on a digit run. -/
def zfill2 (l : List Char) : List Char :=
  if l.length < 2 then List.replicate (2 - l.length) '0' ++ l else l

/-- `SchemaTransformer._fix_dollar`: interpret the digit run as cents. -/
def fixDollarL (digits : List Char) (negative : Bool) : List Char :=
  let formatted :=
    if digits.length ≤ 2 then '0' :: '.' :: zfill2 digits
    else
      commaGroup (digitsToNat (digits.take (digits.length - 2))) ++
        '.' :: digits.drop (digits.length - 2)
  if negative then '(' :: '$' :: formatted ++ [')'] else '$' :: formatted

/-! ### `_clean_cell` -/

/-- `SchemaTransformer._clean_cell` on character lists. -/
def cleanCellL (l : List Char) : Option (List Char) :=
  let stripped := stripWs (stripTrailingNl l)
  match parenDollarMatch stripped with
  | some ds => some (fixDollarL ds true)
  | none =>
    match dollarMatch stripped with
    | some (neg, ds) => some (fixDollarL ds neg)
    | none =>
      if zeroDollarMatch stripped then some ['$', '0', '.', '0', '0']
      else
        match percentMatch stripped with
        | some ds =>
          if l.contains '\n' ∧ 2 ≤ ds.length then
            some (ds.dropLast ++ '.' :: ds.getLastD '0' :: ['%'])
          else some (ds ++ ['%'])
        | none =>
          let s2 := collapseWs stripped
          if s2 = [] then none else some s2

/-- `SchemaTransformer._clean_cell`: `None` stays `None`, an empty result
after cleaning becomes `None`. -/
def cleanCell (v : Cell) : Cell :=
  v.bind fun s => (cleanCellL s.data).map List.asString

/-! ### Row classifier: `_is_summary_row` -/

/-- `SchemaTransformer.SUMMARY_KEYWORDS` (a Python set; iteration order is
irrelevant to the disjunction). -/
def SUMMARY_KEYWORDS : List String :=
  ["total", "sum", "subtotal", "grand total", "average",
   "net total", "net payable", "net commission"]

/-- Python regex `\w` on ASCII: letters, digits, underscore. -/
def isWordChar (c : Char) : Bool :=
  c.isAlphanum || c = '_'

/-- `\b` holds before the match: start of string or a non-word character
(all keywords begin with a word character). -/
def wordBoundaryBefore (prev : Option Char) : Bool :=
  match prev with
  | none => true
  | some c => !(isWordChar c)

/-- `\b` holds after the match: end of string or a non-word character
(all keywords end with a word character). -/
def wordBoundaryAfter (rest : List Char) : Bool :=
  match rest with
  | [] => true
  | c :: _ => !(isWordChar c)

/-- Scan every position of `s`, remembering the previous character. -/
def containsWordAux (kw : List Char) (prev : Option Char) : List Char → Bool
  | [] => false
  | c :: rest =>
    (wordBoundaryBefore prev && kw.isPrefixOf (c :: rest) &&
      wordBoundaryAfter ((c :: rest).drop kw.length)) ||
    containsWordAux kw (some c) rest

/-- `re.search(r'\b' + re.escape(kw) + r'\b', s)` for a keyword made of
word characters and spaces. -/
def containsWord (kw s : List Char) : Bool :=
  containsWordAux kw none s

/-- The per-cell test of `_is_summary_row`: the cell is truthy, its
stripped lowercase form is at most 60 characters, and some keyword occurs
in it as a whole word. -/
def summaryCellHit (cell : Cell) : Bool :=
  match cell with
  | none => false
  | some s =>
    if s = "" then false
    else
      let lower := (stripWs s.data).map Char.toLower
      if 60 < lower.length then false
      else SUMMARY_KEYWORDS.any fun kw => containsWord kw.data lower

/-- `SchemaTransformer._is_summary_row` -/
def isSummaryRow (row : Row) : Bool :=
  row.any summaryCellHit

/-- `SchemaTransformer._headers_match` -/
def headersMatch (h1 h2 : List Cell) : Bool :=
  decide (h1.length = h2.length) && decide (h1 = h2)

/-! ### Key-value tables -/

/-- Truthy cell whose `rstrip()` ends with a colon
(`row[key_col] and row[key_col].rstrip().endswith(":")`). -/
def colonKeyCell (c : Cell) : Bool :=
  match c with
  | none => false
  | some s =>
    if s = "" then false
    else
      match (rstripWs s.data).getLast? with
      | some ch => decide (ch = ':')
      | none => false

/-- `row[i]` under the rectangular-input contract (a missing index reads
as `None`; CPython would raise `IndexError` on a ragged row). -/
def cellAt (row : Row) (i : Nat) : Cell :=
  (row.get? i).getD none

/-- `SchemaTransformer._is_key_value_table` -/
def isKeyValueTable (cells : List Row) : Bool :=
  match cells with
  | [] => false
  | r0 :: _ =>
    if cells.length < 2 ∨ r0.length < 2 then false
    else
      (List.range r0.length).all fun col =>
        if col % 2 = 0 then
          decide (cells.length ≤ 2 * cells.countP fun row => colonKeyCell (cellAt row col))
        else true

/-- Insertion into a Python dict: overwrite in place if the key exists,
otherwise append (insertion order preserved). -/
def kvUpsert (kv : List (String × Cell)) (k : String) (v : Cell) : List (String × Cell) :=
  if kv.any fun p => decide (p.1 = k) then
    kv.map fun p => if p.1 = k then (k, v) else p
  else kv ++ [(k, v)]

/-- Python `str.rstrip(":")`: drop every trailing colon. -/
def rstripColon (l : List Char) : List Char :=
  (l.reverse.dropWhile fun c => decide (c = ':')).reverse

/-- `SchemaTransformer._extract_key_values` (`range(0, ncols - 1, 2)`
visits the even columns below `ncols - 1`). -/
def extractKeyValues (cells : List Row) : List (String × Cell) :=
  let ncols := (cells.headD []).length
  cells.foldl
    (fun kv row =>
      (List.range ncols).foldl
        (fun kv col =>
          if col % 2 = 0 ∧ col < ncols - 1 then
            match cellAt row col with
            | none => kv
            | some k =>
              if k = "" then kv
              else kvUpsert kv (stripWs (rstripColon k.data)).asString (cellAt row (col + 1))
          else kv)
        kv)
    []

/-! ### Trailing-totals parser -/

/-- Substring containment (Python `in` on strings). -/
def containsSub (needle : List Char) : List Char → Bool
  | [] => needle.isPrefixOf []
  | c :: rest => needle.isPrefixOf (c :: rest) || containsSub needle rest

/-- The first-line test of `_parse_trailing_totals`:
`any(kw in line.lower() for kw in ("total", "totals"))`. -/
def isTotalLine (line : String) : Bool :=
  containsSub "total".data (line.data.map Char.toLower) ||
  containsSub "totals".data (line.data.map Char.toLower)

/-- `SchemaTransformer._parse_trailing_totals`: returns (label, values). -/
def parseTrailingTotals (trailing : Option String) : Option (String × List String) :=
  match trailing with
  | none => none
  | some t =>
    if t = "" then none
    else
      let lines := splitNl (stripStr t)
      match lines.findIdx? isTotalLine with
      | none => none
      | some i =>
        let label := stripStr (lines.getD i "")
        let values := ((lines.drop (i + 1)).map stripStr).filter fun ln => ln ≠ ""
        if values = [] then none else some (label, values)

/-! ### OCR table reconstructor -/

/-- `[ln.strip() for ln in text.strip().split("\n") if ln.strip()]`. -/
def ocrLines (t : String) : List String :=
  ((splitNl (stripStr t)).map stripStr).filter fun ln => ln ≠ ""

/-- `SchemaTransformer._detect_image_table`.  The header scan is
`for i in range(start, min(start + 6, len(lines)))` with an early break,
i.e. a `takeWhile` over a window of at most 6 lines. -/
def detectImageTable (t : String) : Option (List String) :=
  if t = "" then none
  else
    let lines := ocrLines t
    if lines.length < 5 then none
    else
      let start := if 30 < (lines.headD "").length then 1 else 0
      let headers := ((lines.drop start).take 6).takeWhile fun ln =>
        decide (ln.length < 30 ∧ lines.count ln = 1)
      if headers.length < 2 then none
      else if 2 * headers.length ≤ lines.length - start - headers.length then some headers
      else none

/-- `is_row_start` in `_parse_image_table`: short, all-alphabetic once
spaces are removed (`str.isalpha` is false on the empty string), and
hyphen-free. -/
def isRowStart (line : String) : Bool :=
  let clean := line.data.filter fun c => decide (c ≠ ' ')
  decide (line.length < 20) && (clean.all Char.isAlpha && decide (clean ≠ [])) &&
    !(line.data.contains '-')

/-- The row-grouping loop of `_parse_image_table`. -/
def groupRows (dataLines : List String) : List (List String) :=
  let r := dataLines.foldl
    (fun (acc : List (List String) × List String) line =>
      if isRowStart line ∧ acc.2 ≠ [] then (acc.1 ++ [acc.2], [line])
      else (acc.1, acc.2 ++ [line]))
    ([], [])
  if r.2 = [] then r.1 else r.1 ++ [r.2]

/-- Pad/merge one line group to the header count: the first `ncols - 1`
lines become cells, the rest are joined with spaces into the last cell;
short groups are padded with `None`. -/
def padGroup (group : List String) (ncols : Nat) : Row :=
  if ncols ≤ group.length then
    (group.take (ncols - 1)).map some ++ [some (joinSpace (group.drop (ncols - 1)))]
  else group.map some ++ List.replicate (ncols - group.length) none

/-- The shared classification loop (`_on_table`, `_try_merge_table`,
`_parse_image_table`): non-summary rows are appended in order, the last
summary row wins. -/
def foldRowsSummary (init : List Row × Option Row) (rows : List Row) :
    List Row × Option Row :=
  rows.foldl
    (fun acc row => if isSummaryRow row then (acc.1, some row) else (acc.1 ++ [row], acc.2))
    init

/-- `SchemaTransformer._parse_image_table`.  `lines.index(headers[-1])` is
modelled by `List.indexOf`, which returns `lines.length` when the header
is absent (the transform only calls this with headers drawn from the same
line list, where the index exists). -/
def parseImageTable (t : String) (headers : List String) (skipHeader : Bool) :
    List Row × Option Row :=
  let lines := ocrLines t
  let dataLines :=
    if skipHeader then lines
    else lines.drop (lines.indexOf (headers.getLastD "") + 1)
  let ncols := headers.length
  foldRowsSummary ([], none) ((groupRows dataLines).map fun g => padGroup g ncols)

/-! ### Raw input data model (§3/§6 of the input contract) -/

/-- A machine-detected table of the raw extraction. -/
structure RawTable where
  header_names : List Cell
  cells : List Row
  col_count : Nat
  row_count : Nat
  trailing_text : Option String
deriving DecidableEq, Repr

/-- `[x0, y0, x1, y1]`; only the top-left corner is read by the transform. -/
structure BBox where
  x0 : Int
  y0 : Int
  x1 : Int
  y1 : Int
deriving DecidableEq, Repr

/-- An OCR'd image region. -/
structure RawImage where
  bbox : BBox
  ocr_text : String
deriving DecidableEq, Repr

/-- The inline `layout_table` fallback of a layout box. -/
structure LayoutTable where
  col_count : Nat
  row_count : Nat
  cells : List Row
deriving DecidableEq, Repr

/-- A classified layout box. -/
structure Box where
  boxclass : String
  bbox : BBox
  text : String
  layout_table : Option LayoutTable
deriving DecidableEq, Repr

/-- One page of the raw extraction. -/
structure RawPage where
  page_number : Int
  tables : List RawTable
  images : List RawImage
  layout_boxes : List Box
deriving DecidableEq, Repr

/-- The raw extraction of one document. -/
structure RawDoc where
  filename : String
  total_pages : Nat
  pages : List RawPage
deriving DecidableEq, Repr

/-! ### Output data model -/

/-- The `data` field of an output block: a free-form string, a
headers/rows/summary_row structure, or a key-value mapping. -/
inductive BlockData where
  | text (content : String)
  | table (headers : List Cell) (rows : List Row) (summaryRow : Option Row)
  | keyValue (kv : List (String × Cell))
deriving DecidableEq, Repr

/-- The `page` field: a scalar page number or a list of page numbers. -/
inductive PageField where
  | one (n : Int)
  | many (ns : List Int)
deriving DecidableEq, Repr

/-- One output block. -/
structure Block where
  title : String
  description : String
  btype : String
  data : BlockData
  page : Option PageField
deriving DecidableEq, Repr

/-- `SchemaTransformer._make_block`: `title or ""`, `description or ""`,
optional page. -/
def makeBlock (title description : Option String) (btype : String) (data : BlockData)
    (page : Option PageField) : Block :=
  { title := title.getD "", description := description.getD "",
    btype := btype, data := data, page := page }

/-- The output of `transform`. -/
structure Output where
  filename : String
  total_pages : Nat
  blocks : List Block
deriving DecidableEq, Repr

/-! ### Transformer state -/

/-- The pending table accumulator (`self._pending_table`). -/
structure PendingTable where
  page : List Int
  title : Option String
  description : Option String
  headers : List Cell
  rows : List Row
  summaryRow : Option Row
  rawHeaders : List Cell
  trailing : Option String
deriving DecidableEq, Repr

/-- The mutable fields of `SchemaTransformer`, including the per-page
context set by `_process_page`. -/
structure TState where
  blocks : List Block
  heading : Option String
  textBuf : List String
  textPage : Option Int
  pending : Option PendingTable
  lastImgHeaders : Option (List String)
  pg : Int
  pageTables : List RawTable
  pageImages : List RawImage
  tableIdx : Nat
deriving DecidableEq, Repr

/-- The state built by `__init__` (page context at its Python defaults). -/
def initState : TState :=
  { blocks := [], heading := none, textBuf := [], textPage := none,
    pending := none, lastImgHeaders := none, pg := 0, pageTables := [],
    pageImages := [], tableIdx := 0 }

/-- Python truthiness of an optional string. -/
def truthyOptStr (o : Option String) : Bool :=
  match o with
  | some s => decide (s ≠ "")
  | none => false

/-- Python truthiness of `self._heading` is falsy (`not self._heading`). -/
def headingFalsy (h : Option String) : Bool :=
  match h with
  | some s => decide (s = "")
  | none => true

/-- Python falsiness of `pt["summary_row"]` (None or an empty list). -/
def summaryFalsy (o : Option Row) : Bool :=
  match o with
  | some r => decide (r = [])
  | none => true

/-! ### State-machine steps -/

/-- `SchemaTransformer._flush_text` -/
def flushText (s : TState) : TState :=
  if s.textBuf ≠ [] then
    { s with
      blocks := s.blocks ++
        [makeBlock s.heading (some "") "text_block" (BlockData.text (joinNl s.textBuf))
          (s.textPage.map PageField.one)],
      textBuf := [], textPage := none }
  else s

/-- `SchemaTransformer._flush_pending_table` -/
def flushPendingTable (s : TState) : TState :=
  match s.pending with
  | none => s
  | some pt =>
    let pt :=
      if summaryFalsy pt.summaryRow ∧ truthyOptStr pt.trailing then
        match parseTrailingTotals pt.trailing with
        | some (label, values) =>
          { pt with summaryRow := some (some label :: values.map some) }
        | none => pt
      else pt
    let pageVal : PageField :=
      match pt.page with
      | [p] => PageField.one p
      | ps => PageField.many ps
    { s with
      blocks := s.blocks ++
        [makeBlock pt.title pt.description "table"
          (BlockData.table pt.headers pt.rows pt.summaryRow) (some pageVal)],
      pending := none }

/-- `SchemaTransformer._on_heading` (its `text` argument was stripped by
`_process_page`). -/
def onHeading (s : TState) (text : String) : TState :=
  let s := flushText s
  let s := flushPendingTable s
  let h := if text.data.contains '\n' then stripStr ((splitNl text).getLastD "")
           else text
  { s with heading := some h }

/-- `SchemaTransformer._on_text` -/
def onText (s : TState) (text : String) : TState :=
  if s.textBuf = [] then { s with textBuf := [text], textPage := some s.pg }
  else { s with textBuf := s.textBuf ++ [text] }

/-- `SchemaTransformer._resolve_table_data`: consume the next
machine-detected table of the page, else fall back to the box's inline
layout table, else nothing; also advances `_table_idx`. -/
def resolveTableData (s : TState) (box : Box) :
    Option (List Cell × List Row × RawTable) × TState :=
  match s.pageTables.get? s.tableIdx with
  | some tab =>
    (some (tab.header_names.map cleanCell, tab.cells.map (fun r => r.map cleanCell), tab),
     { s with tableIdx := s.tableIdx + 1 })
  | none =>
    match box.layout_table with
    | some lt =>
      let allRows := lt.cells.map fun r => r.map cleanCell
      let headers := allRows.headD []
      (some (headers, allRows,
        { col_count := lt.col_count, row_count := lt.row_count,
          header_names := headers, cells := lt.cells, trailing_text := none }), s)
    | none => (none, s)

/-- `SchemaTransformer._resolve_title_description`: consumes the text
buffer; a single short buffered line with no heading becomes the title. -/
def resolveTitleDescription (s : TState) : Option String × Option String × TState :=
  if s.textBuf ≠ [] then
    if headingFalsy s.heading ∧ s.textBuf.length = 1 ∧ (s.textBuf.headD "").length < 80 then
      (some (s.textBuf.headD ""), none, { s with textBuf := [], textPage := none })
    else
      (s.heading, some (joinNl s.textBuf), { s with textBuf := [], textPage := none })
  else (s.heading, none, s)

/-- `SchemaTransformer._try_merge_table`: `none` means no merge. -/
def tryMergeTable (s : TState) (headers : List Cell) (dataRows allRows : List Row)
    (tab : RawTable) : Option TState :=
  match s.pending with
  | none => none
  | some pt =>
    let lastPg := pt.page.getLastD 0
    if headersMatch pt.rawHeaders headers ∨
        (pt.rawHeaders.length = headers.length ∧ s.pg ≤ lastPg + 1) then
      let rowsToAdd := if headersMatch pt.rawHeaders headers then dataRows else allRows
      let folded := foldRowsSummary (pt.rows, pt.summaryRow) rowsToAdd
      let newPage := if s.pg ∈ pt.page then pt.page else pt.page ++ [s.pg]
      let newTrailing := if truthyOptStr tab.trailing_text then tab.trailing_text
                         else pt.trailing
      some { s with pending := some { pt with
        rows := folded.1, summaryRow := folded.2, page := newPage,
        trailing := newTrailing } }
    else none

/-- `SchemaTransformer._on_table` -/
def onTable (s : TState) (box : Box) : TState :=
  let s := { s with lastImgHeaders := none }
  match resolveTableData s box with
  | (none, s) => s
  | (some (headers, allRows, tab), s) =>
    let (title, description, s) := resolveTitleDescription s
    if isKeyValueTable allRows then
      let s := flushPendingTable s
      { s with blocks := s.blocks ++
          [makeBlock title description "table"
            (BlockData.keyValue (extractKeyValues allRows))
            (some (PageField.one s.pg))] }
    else
      let dataRows := allRows.filter fun r => r ≠ headers
      match tryMergeTable s headers dataRows allRows tab with
      | some s => s
      | none =>
        let s := flushPendingTable s
        let folded := foldRowsSummary ([], none) dataRows
        { s with pending := some {
            page := [s.pg], title := title, description := description,
            headers := headers, rows := folded.1, summaryRow := folded.2,
            rawHeaders := headers, trailing := tab.trailing_text } }

/-- `SchemaTransformer._match_ocr_text`: the first image of the page whose
top-left corner is within 30 units of the box's on both axes. -/
def matchOcrText (s : TState) (box : Box) : String :=
  match s.pageImages.find? (fun img =>
      decide ((img.bbox.x0 - box.bbox.x0).natAbs < 30 ∧
              (img.bbox.y0 - box.bbox.y0).natAbs < 30)) with
  | some img => img.ocr_text
  | none => ""

/-- `SchemaTransformer._on_picture`.  Python's `if img_headers:` and
`elif self._last_img_tbl_headers and ocr_text:` are empty-list/`None`
truthiness tests, modelled via `Option.getD []` and list non-emptiness. -/
def onPicture (s : TState) (box : Box) : TState :=
  let s := flushText s
  let s := flushPendingTable s
  let pg := s.pg
  let ocrText := matchOcrText s box
  let imgHeaders := (detectImageTable ocrText).getD []
  if imgHeaders ≠ [] then
    let parsed := parseImageTable ocrText imgHeaders false
    let description := if s.textBuf ≠ [] then joinNl s.textBuf else ""
    { s with
      blocks := s.blocks ++
        [makeBlock s.heading (some description) "image_table"
          (BlockData.table (imgHeaders.map some) parsed.1 parsed.2)
          (some (PageField.one pg))],
      textBuf := [], textPage := none,
      lastImgHeaders := some imgHeaders }
  else
    let prevHeaders := s.lastImgHeaders.getD []
    if prevHeaders ≠ [] ∧ ocrText ≠ "" then
      let parsed := parseImageTable ocrText prevHeaders true
      if parsed.1 ≠ [] then
        { s with blocks := s.blocks ++
            [makeBlock s.heading (some "") "image_table"
              (BlockData.table (prevHeaders.map some) parsed.1 parsed.2)
              (some (PageField.one pg))] }
      else
        { s with blocks := s.blocks ++
            [makeBlock s.heading (some "") "image_text" (BlockData.text ocrText)
              (some (PageField.one pg))] }
    else
      { s with blocks := s.blocks ++
          [makeBlock s.heading (some "") "image_text" (BlockData.text ocrText)
            (some (PageField.one pg))] }

/-- One iteration of the box loop in `_process_page`. -/
def processBox (s : TState) (box : Box) : TState :=
  let text := stripStr box.text
  if box.boxclass = "section-header" ∨ box.boxclass = "header" then onHeading s text
  else if box.boxclass = "table" then onTable s box
  else if box.boxclass = "picture" then onPicture s box
  else if (box.boxclass = "text" ∨ box.boxclass = "list-item") ∧ text ≠ "" then
    onText s text
  else s

/-- `SchemaTransformer._process_page` -/
def processPage (s : TState) (page : RawPage) : TState :=
  let s := { s with pg := page.page_number, pageTables := page.tables,
                    pageImages := page.images, tableIdx := 0 }
  page.layout_boxes.foldl processBox s

/-- `SchemaTransformer.transform` / `_run` -/
def transform (raw : RawDoc) : Output :=
  let s := raw.pages.foldl processPage initState
  let s := flushText s
  let s := flushPendingTable s
  { filename := raw.filename, total_pages := raw.total_pages, blocks := s.blocks }

/-! ### Specification-side definition for header detection

The spec describes header detection as taking the *maximal* run of short,
unique lines; the code's scan window is bounded at 6 lines.  This
definition follows the spec's words, for comparison with
`detectImageTable`. -/

/-- Header detection exactly as the spec words it (no bound on the header
run): split into non-empty trimmed lines, require at least 5, skip a long
first line, take the maximal run of lines shorter than 30 characters
occurring exactly once, require at least 2 headers and at least twice as
many remaining lines. -/
def specDetectImageTable (t : String) : Option (List String) :=
  if t = "" then none
  else
    let lines := ocrLines t
    if lines.length < 5 then none
    else
      let start := if 30 < (lines.headD "").length then 1 else 0
      let headers := (lines.drop start).takeWhile fun ln =>
        decide (ln.length < 30 ∧ lines.count ln = 1)
      if headers.length < 2 then none
      else if 2 * headers.length ≤ lines.length - start - headers.length then some headers
      else none

/-- The spec's header detection amended with the code's 6-line scan
window: the maximal run is truncated to its first 6 lines. -/
def specDetectImageTableCapped (t : String) : Option (List String) :=
  if t = "" then none
  else
    let lines := ocrLines t
    if lines.length < 5 then none
    else
      let start := if 30 < (lines.headD "").length then 1 else 0
      let headers := ((lines.drop start).takeWhile fun ln =>
        decide (ln.length < 30 ∧ lines.count ln = 1)).take 6
      if headers.length < 2 then none
      else if 2 * headers.length ≤ lines.length - start - headers.length then some headers
      else none

/-! ### Concrete documents used by the closed theorems -/

/-- A layout box with defaulted fields. -/
def mkBox (cls : String) (text : String := "") (bb : BBox := ⟨0, 0, 10, 10⟩)
    (lt : Option LayoutTable := none) : Box :=
  { boxclass := cls, bbox := bb, text := text, layout_table := lt }

/-- The 1-page document of the end-to-end scenario: a header box
"Summary", a text box "See below.", and a table box whose machine-detected
table is `[["A","B"],["x","1"],["Total","1"]]` with headers `["A","B"]`. -/
def docC1 : RawDoc :=
  { filename := "f", total_pages := 1, pages := [
    { page_number := 1,
      tables := [{ header_names := [some "A", some "B"],
                   cells := [[some "A", some "B"], [some "x", some "1"],
                             [some "Total", some "1"]],
                   col_count := 2, row_count := 3, trailing_text := none }],
      images := [],
      layout_boxes := [mkBox "header" "Summary", mkBox "text" "See below.",
                       mkBox "table"] }] }

/-- A 1-page document with two picture boxes: the first OCR text detects
an image table with headers `Q1`,`Q2`; the second picture's OCR text is
exactly those two header lines, which the continuation heuristic folds
into a single row equal to the headers. -/
def docC8 : RawDoc :=
  { filename := "h", total_pages := 1, pages := [
    { page_number := 1, tables := [],
      images := [{ bbox := ⟨0, 0, 10, 10⟩, ocr_text := "Q1\nQ2\nD\nD\nD\nD" },
                 { bbox := ⟨200, 0, 210, 10⟩, ocr_text := "Q1\nQ2" }],
      layout_boxes := [mkBox "picture" "" ⟨0, 0, 10, 10⟩,
                       mkBox "picture" "" ⟨200, 0, 210, 10⟩] }] }

/-- OCR text with 7 short unique lines followed by 11 duplicated lines:
the code's 6-line window collects 6 headers (12 ≤ remaining 12), while the
spec's unbounded maximal run would collect 7 and then reject the table
(remaining 11 < 14). -/
def ocrC7 : String :=
  "a\nb\nc\nd\ne\nf\ng\nx\nx\nx\nx\nx\nx\nx\nx\nx\nx\nx"

/-- A pending-table state for exercising `_try_merge_table` directly:
original headers `["a","b"]`, page list `[5]`, current page 2. -/
def mergeStateC2 : TState :=
  { initState with
    pg := 2,
    pending := some {
      page := [5], title := none, description := none,
      headers := [some "a", some "b"], rows := [[some "r", some "s"]],
      summaryRow := none, rawHeaders := [some "a", some "b"],
      trailing := none } }

/-- A table payload for the `_try_merge_table` counterexample: headers
`["c","d"]` differ from the pending `["a","b"]` but have the same length,
and the current page 2 is neither the pending last page 5 nor 6. -/
def mergeTabC2 : RawTable :=
  { header_names := [some "c", some "d"], cells := [[some "u", some "v"]],
    col_count := 2, row_count := 1, trailing_text := none }

/-- No box of the list is a picture whose matched OCR text (at its
processing state) detects an image table. -/
def noDetectPics (s : TState) : List Box → Bool
  | [] => true
  | b :: bs =>
    decide (b.boxclass = "picture" → detectImageTable (matchOcrText s b) = none) &&
    noDetectPics (processBox s b) bs

/-- A block with tabular data carries no summary-classified row in its
`rows` list. -/
def blockOk (b : Block) : Prop :=
  ∀ headers rows sr, b.data = BlockData.table headers rows sr →
    ∀ r ∈ rows, isSummaryRow r = false

/-- Invariant of the transformer state: every emitted block is `blockOk`,
and the pending accumulator's rows contain no summary-classified row. -/
def stateOk (s : TState) : Prop :=
  (∀ b ∈ s.blocks, blockOk b) ∧
  (∀ pt, s.pending = some pt → ∀ r ∈ pt.rows, isSummaryRow r = false)

end Pdf

namespace Pdf

/-! ## Helper lemmas -/

theorem dropWhile_append_all {p : Char → Bool} {l1 l2 : List Char}
    (h : ∀ c ∈ l1, p c = true) : (l1 ++ l2).dropWhile p = l2.dropWhile p := by
  induction l1 with
  | nil => rfl
  | cons a t ih =>
    simp only [List.cons_append, List.dropWhile_cons]
    rw [if_pos (h a (List.mem_cons_self a t))]
    exact ih fun c hc => h c (List.mem_cons_of_mem a hc)

theorem takeWhile_append_all {p : Char → Bool} {l1 l2 : List Char}
    (h : ∀ c ∈ l1, p c = true) : (l1 ++ l2).takeWhile p = l1 ++ l2.takeWhile p := by
  induction l1 with
  | nil => rfl
  | cons a t ih =>
    simp only [List.cons_append, List.takeWhile_cons]
    rw [if_pos (h a (List.mem_cons_self a t))]
    rw [ih fun c hc => h c (List.mem_cons_of_mem a hc)]

theorem takeWhile_take_comm {α : Type} (p : α → Bool) :
    ∀ (n : Nat) (l : List α), (l.take n).takeWhile p = (l.takeWhile p).take n := by
  intro n l
  induction l generalizing n with
  | nil => simp
  | cons a t ih =>
    cases n with
    | zero => simp
    | succ m =>
      simp only [List.take_succ_cons, List.takeWhile_cons]
      by_cases h : p a = true
      · simp [h, ih]
      · simp [h]

theorem dropWhile_eq_self_of_head {p : Char → Bool} {l : List Char}
    (h : ∀ c, l.head? = some c → p c = false) : l.dropWhile p = l := by
  cases l with
  | nil => rfl
  | cons a t =>
    rw [List.dropWhile_cons, if_neg]
    simp [h a rfl]

theorem rstripWs_eq_self {l : List Char}
    (h : ∀ c, l.getLast? = some c → isWs c = false) : rstripWs l = l := by
  unfold rstripWs
  rw [dropWhile_eq_self_of_head, List.reverse_reverse]
  intro c hc
  rw [List.head?_reverse] at hc
  exact h c hc

theorem stripWs_eq_self {l : List Char}
    (h1 : ∀ c, l.head? = some c → isWs c = false)
    (h2 : ∀ c, l.getLast? = some c → isWs c = false) : stripWs l = l := by
  unfold stripWs
  rw [dropWhile_eq_self_of_head h1, rstripWs_eq_self h2]

theorem stripTrailingNl_of_not_mem : ∀ {l : List Char}, '\n' ∉ l → stripTrailingNl l = l := by
  intro l h
  induction l with
  | nil => rfl
  | cons a t ih =>
    unfold stripTrailingNl
    rw [if_neg, ih fun hm => h (List.mem_cons_of_mem a hm)]
    rintro ⟨rfl, -⟩
    exact h (List.mem_cons_self _ _)

theorem mem_dropWhile_of_mem {p : Char → Bool} {l : List Char} {c : Char}
    (hm : c ∈ l) (hp : p c = false) : c ∈ l.dropWhile p := by
  have := List.takeWhile_append_dropWhile p l
  rw [← this] at hm
  rcases List.mem_append.mp hm with h | h
  · exact absurd (List.mem_takeWhile_imp h) (by simp [hp])
  · exact h

theorem stripTrailingNl_eq_self_of_last {l : List Char}
    (h : ∀ c, l.getLast? = some c → isWs c = false ∧ isPunctSp c = false) :
    stripTrailingNl l = l := by
  induction l with
  | nil => rfl
  | cons a t ih =>
    unfold stripTrailingNl
    rw [if_neg, ih]
    · intro c hc
      cases t with
      | nil => exact absurd hc (by simp)
      | cons b u => exact h c (by rw [List.getLast?_cons_cons]; exact hc)
    · rintro ⟨rfl, hall⟩
      cases t with
      | nil =>
        have := (h '\n' rfl).1
        exact absurd this (by decide)
      | cons b u =>
        have hne : (b :: u : List Char) ≠ [] := by simp
        obtain ⟨c, hc⟩ : ∃ c, (b :: u : List Char).getLast? = some c :=
          ⟨(b :: u).getLast hne, List.getLast?_eq_getLast_of_ne_nil hne⟩
        have hprops := h c (by rw [List.getLast?_cons_cons]; exact hc)
        have hcmem : c ∈ (b :: u : List Char) := by
          rcases List.mem_getLast?_eq_getLast hc with ⟨hh, rfl⟩
          exact List.getLast_mem hh
        have : c ∈ (b :: u).dropWhile isPunctSp :=
          mem_dropWhile_of_mem hcmem hprops.2
        rw [List.all_eq_true] at hall
        exact absurd (hall c this) (by simp [hprops.1])

theorem isWs_false_of_isDigit {c : Char} (h : Char.isDigit c = true) : isWs c = false := by
  by_contra hw
  rw [Bool.not_eq_false] at hw
  unfold isWs at hw
  simp only [Bool.or_eq_true, decide_eq_true_eq] at hw
  rcases hw with ((((rfl | rfl) | rfl) | rfl) | rfl) | rfl <;> exact absurd h (by decide)

theorem isPunctSp_false_of_isDigit {c : Char} (h : Char.isDigit c = true) :
    isPunctSp c = false := by
  by_contra hw
  rw [Bool.not_eq_false] at hw
  unfold isPunctSp at hw
  simp only [Bool.or_eq_true, decide_eq_true_eq] at hw
  rcases hw with (rfl | rfl) | rfl <;> exact absurd h (by decide)

theorem ne_of_isDigit {c x : Char} (h : Char.isDigit c = true)
    (hx : Char.isDigit x = false) : c ≠ x := by
  rintro rfl
  rw [h] at hx
  cases hx

theorem parenDollarMatch_cons_ne {c : Char} {rest : List Char} (h : c ≠ '(') :
    parenDollarMatch (c :: rest) = none := by
  cases rest with
  | nil => rfl
  | cons c2 r =>
    unfold parenDollarMatch
    dsimp only
    rw [if_neg]
    rintro ⟨rfl, -⟩
    exact h rfl

theorem dollarMatch_cons_ne {c : Char} {rest : List Char} (h : c ≠ '$') :
    dollarMatch (c :: rest) = none := by
  unfold dollarMatch
  dsimp only
  rw [if_neg h]

theorem zeroDollarMatch_cons_ne {c : Char} {rest : List Char} (h : c ≠ '$') :
    zeroDollarMatch (c :: rest) = false := by
  unfold zeroDollarMatch
  dsimp only
  rw [if_neg h]

theorem percentMatch_some {l ds : List Char} (h : percentMatch l = some ds) :
    ds ≠ [] ∧ (∀ c ∈ ds, Char.isDigit c = true) ∧ l = ds ++ ['%'] := by
  unfold percentMatch at h
  by_cases hc : l.takeWhile Char.isDigit ≠ [] ∧ l.dropWhile Char.isDigit = ['%']
  · rw [if_pos hc] at h
    obtain rfl : l.takeWhile Char.isDigit = ds := Option.some_inj.mp h
    refine ⟨hc.1, fun c hcm => List.mem_takeWhile_imp hcm, ?_⟩
    conv_lhs => rw [← List.takeWhile_append_dropWhile Char.isDigit l]
    rw [hc.2]
  · rw [if_neg hc] at h
    exact absurd h (by simp)

theorem cleanCellL_paren_form (k : Nat) (ds : List Char) (hne : ds ≠ [])
    (hdig : ∀ c ∈ ds, Char.isDigit c = true) :
    cleanCellL ('(' :: '$' :: (List.replicate k ' ' ++ ds ++ [')'])) =
      some (fixDollarL ds true) := by
  obtain ⟨d, ds', rfl⟩ : ∃ d t, ds = d :: t := by
    cases ds with
    | nil => exact absurd rfl hne
    | cons d t => exact ⟨d, t, rfl⟩
  have hd : Char.isDigit d = true := hdig d (List.mem_cons_self _ _)
  have hnl : '\n' ∉ ('(' :: '$' :: (List.replicate k ' ' ++ (d :: ds') ++ [')'])) := by
    intro hmem
    simp only [List.mem_cons, List.mem_append, List.mem_replicate] at hmem
    rcases hmem with h | h | (⟨-, h⟩ | h) | h
    · exact absurd h (by decide)
    · exact absurd h (by decide)
    · exact absurd h (by decide)
    · exact absurd (hdig '\n' (List.mem_cons.mpr h)) (by decide)
    · simp at h
  have hshape : ('(' :: '$' :: (List.replicate k ' ' ++ (d :: ds') ++ [')'])) =
      ('(' :: '$' :: (List.replicate k ' ' ++ (d :: ds'))) ++ [')'] := by
    simp
  have hstrip : stripWs (stripTrailingNl
      ('(' :: '$' :: (List.replicate k ' ' ++ (d :: ds') ++ [')']))) =
      '(' :: '$' :: (List.replicate k ' ' ++ (d :: ds') ++ [')']) := by
    rw [stripTrailingNl_of_not_mem hnl]
    apply stripWs_eq_self
    · intro c hc
      obtain rfl : '(' = c := by simpa using hc
      rfl
    · intro c hc
      rw [hshape, List.getLast?_concat] at hc
      obtain rfl : ')' = c := by simpa using hc
      rfl
  have h1 : (List.replicate k ' ' ++ (d :: ds') ++ [')']).dropWhile isWs =
      (d :: ds') ++ [')'] := by
    rw [List.append_assoc,
      dropWhile_append_all (fun c hc => by rw [List.eq_of_mem_replicate hc]; rfl)]
    apply dropWhile_eq_self_of_head
    intro c hc
    obtain rfl : d = c := by simpa using hc
    exact isWs_false_of_isDigit hd
  have h2 : ((d :: ds') ++ [')']).takeWhile Char.isDigit = d :: ds' := by
    rw [takeWhile_append_all hdig, List.takeWhile_cons, if_neg (by decide), List.append_nil]
  have h3 : ((d :: ds') ++ [')']).dropWhile Char.isDigit = [')'] := by
    rw [dropWhile_append_all hdig, List.dropWhile_cons, if_neg (by decide)]
  have hp : parenDollarMatch
      ('(' :: '$' :: (List.replicate k ' ' ++ (d :: ds') ++ [')'])) = some (d :: ds') := by
    unfold parenDollarMatch
    dsimp only
    rw [if_pos ⟨rfl, rfl⟩, h1, h2, h3]
    rw [dropWhile_eq_self_of_head (fun c hc => by
      obtain rfl : ')' = c := by simpa using hc
      rfl)]
    rw [if_pos ⟨by simp, rfl⟩]
  unfold cleanCellL
  dsimp only
  rw [hstrip]
  simp only [hp]

theorem cleanCellL_dollar_form (neg : Bool) (ds : List Char) (hne : ds ≠ [])
    (hdig : ∀ c ∈ ds, Char.isDigit c = true) :
    cleanCellL ('$' :: ((if neg then ['-'] else []) ++ ds)) = some (fixDollarL ds neg) := by
  obtain ⟨d, ds', rfl⟩ : ∃ d t, ds = d :: t := by
    cases ds with
    | nil => exact absurd rfl hne
    | cons d t => exact ⟨d, t, rfl⟩
  have hd : Char.isDigit d = true := hdig d (List.mem_cons_self _ _)
  obtain ⟨dl, hdl⟩ : ∃ dl, ((d :: ds') : List Char).getLast? = some dl :=
    ⟨(d :: ds').getLast (by simp), List.getLast?_eq_getLast_of_ne_nil (by simp)⟩
  have hdlmem : dl ∈ d :: ds' := by
    rcases List.mem_getLast?_eq_getLast (show dl ∈ ((d :: ds') : List Char).getLast? by
      rw [hdl]; rfl) with ⟨hh, rfl⟩
    exact List.getLast_mem hh
  have hdldig : Char.isDigit dl = true := hdig dl hdlmem
  cases neg with
  | true =>
    show cleanCellL ('$' :: '-' :: d :: ds') = some (fixDollarL (d :: ds') true)
    have hnl : '\n' ∉ ('$' :: '-' :: d :: ds') := by
      intro hmem
      rcases List.mem_cons.mp hmem with h | hmem2
      · exact absurd h (by decide)
      rcases List.mem_cons.mp hmem2 with h | hmem3
      · exact absurd h (by decide)
      · exact absurd (hdig '\n' hmem3) (by decide)
    have hstrip : stripWs (stripTrailingNl ('$' :: '-' :: d :: ds')) =
        '$' :: '-' :: d :: ds' := by
      rw [stripTrailingNl_of_not_mem hnl]
      apply stripWs_eq_self
      · intro c hc
        obtain rfl : '$' = c := by simpa using hc
        rfl
      · intro c hc
        rw [List.getLast?_cons_cons, List.getLast?_cons_cons, hdl] at hc
        obtain rfl : dl = c := by simpa using hc
        exact isWs_false_of_isDigit hdldig
    have hdm : dollarMatch ('$' :: '-' :: d :: ds') = some (true, d :: ds') := by
      unfold dollarMatch
      dsimp only
      rw [if_pos rfl]
      rw [dropWhile_eq_self_of_head (fun c hc => by
        obtain rfl : '-' = c := by simpa using hc
        rfl)]
      rw [if_pos (show (('-' :: d :: ds') : List Char).head? = some '-' from rfl)]
      dsimp only [List.tail_cons]
      rw [List.takeWhile_eq_self_iff.mpr hdig, List.dropWhile_eq_nil_iff.mpr hdig]
      rw [if_pos ⟨by simp, rfl⟩]
      rfl
    have hp : parenDollarMatch ('$' :: '-' :: d :: ds') = none :=
      parenDollarMatch_cons_ne (by decide)
    unfold cleanCellL
    dsimp only
    rw [hstrip]
    simp only [hp, hdm]
  | false =>
    show cleanCellL ('$' :: d :: ds') = some (fixDollarL (d :: ds') false)
    have hnl : '\n' ∉ ('$' :: d :: ds') := by
      intro hmem
      rcases List.mem_cons.mp hmem with h | hmem2
      · exact absurd h (by decide)
      · exact absurd (hdig '\n' hmem2) (by decide)
    have hstrip : stripWs (stripTrailingNl ('$' :: d :: ds')) = '$' :: d :: ds' := by
      rw [stripTrailingNl_of_not_mem hnl]
      apply stripWs_eq_self
      · intro c hc
        obtain rfl : '$' = c := by simpa using hc
        rfl
      · intro c hc
        rw [List.getLast?_cons_cons, hdl] at hc
        obtain rfl : dl = c := by simpa using hc
        exact isWs_false_of_isDigit hdldig
    have hne2 : ((d :: ds') : List Char).head? ≠ some '-' := by
      simp only [List.head?_cons, ne_eq, Option.some.injEq]
      exact ne_of_isDigit hd (by decide)
    have hdm : dollarMatch ('$' :: d :: ds') = some (false, d :: ds') := by
      unfold dollarMatch
      dsimp only
      rw [if_pos rfl]
      rw [dropWhile_eq_self_of_head (fun c hc => by
        obtain rfl : d = c := by simpa using hc
        exact isWs_false_of_isDigit hd)]
      rw [if_neg hne2]
      rw [List.takeWhile_eq_self_iff.mpr hdig, List.dropWhile_eq_nil_iff.mpr hdig]
      rw [if_pos ⟨by simp, rfl⟩]
      rw [decide_eq_false hne2]
    have hp : parenDollarMatch ('$' :: d :: ds') = none :=
      parenDollarMatch_cons_ne (by decide)
    unfold cleanCellL
    dsimp only
    rw [hstrip]
    simp only [hp, hdm]

theorem cleanCellL_zero_form (w1 w2 w3 w4 m : List Char)
    (hw1 : ∀ c ∈ w1, isWs c = true) (hw2 : ∀ c ∈ w2, isWs c = true)
    (hw3 : ∀ c ∈ w3, isWs c = true) (hw4 : ∀ c ∈ w4, isWs c = true)
    (hm : m = [] ∨ m = ['-']) :
    cleanCellL ('$' :: (w1 ++ m ++ w2 ++ '0' :: (w3 ++ '.' :: (w4 ++ ['0', '0'])))) =
      some ['$', '0', '.', '0', '0'] := by
  have hT5 : (w3 ++ '.' :: (w4 ++ ['0', '0'])).dropWhile isWs = '.' :: (w4 ++ ['0', '0']) := by
    rw [dropWhile_append_all hw3]
    exact dropWhile_eq_self_of_head (fun c hc => by
      obtain rfl : '.' = c := by simpa using hc
      rfl)
  have hT7 : (w4 ++ ['0', '0']).dropWhile isWs = ['0', '0'] := by
    rw [dropWhile_append_all hw4]
    rfl
  have hdot : '.' ∈ w3 ++ '.' :: (w4 ++ ['0', '0']) :=
    List.mem_append_right _ (List.mem_cons_self _ _)
  rcases hm with rfl | rfl
  · -- m = []
    set T := w3 ++ '.' :: (w4 ++ ['0', '0']) with hTdef
    have hbig : ('$' :: (w1 ++ [] ++ w2 ++ '0' :: T)) =
        ('$' :: (w1 ++ [] ++ w2 ++ '0' :: (w3 ++ '.' :: (w4 ++ ['0'])))) ++ ['0'] := by
      simp [hTdef]
    have hlast : ∀ c, ('$' :: (w1 ++ [] ++ w2 ++ '0' :: T)).getLast? = some c →
        isWs c = false ∧ isPunctSp c = false := by
      intro c hc
      rw [hbig, List.getLast?_concat] at hc
      obtain rfl : '0' = c := by simpa using hc
      exact ⟨rfl, rfl⟩
    have hstrip : stripWs (stripTrailingNl ('$' :: (w1 ++ [] ++ w2 ++ '0' :: T))) =
        '$' :: (w1 ++ [] ++ w2 ++ '0' :: T) := by
      rw [stripTrailingNl_eq_self_of_last hlast]
      apply stripWs_eq_self
      · intro c hc
        obtain rfl : '$' = c := by simpa using hc
        rfl
      · intro c hc
        exact (hlast c hc).1
    have hr1 : (w1 ++ [] ++ w2 ++ '0' :: T).dropWhile isWs = '0' :: T := by
      rw [List.append_nil, List.append_assoc, dropWhile_append_all hw1,
        dropWhile_append_all hw2]
      exact dropWhile_eq_self_of_head (fun c hc => by
        obtain rfl : '0' = c := by simpa using hc
        rfl)
    have hnm : (('0' :: T) : List Char).head? ≠ some '-' := by simp
    have hdm : dollarMatch ('$' :: (w1 ++ [] ++ w2 ++ '0' :: T)) = none := by
      unfold dollarMatch
      dsimp only
      rw [if_pos rfl, hr1, if_neg hnm, if_neg]
      rintro ⟨-, habs⟩
      rw [List.dropWhile_eq_nil_iff] at habs
      exact absurd (habs '.' (List.mem_cons_of_mem _ hdot)) (by decide)
    have hz : zeroDollarMatch ('$' :: (w1 ++ [] ++ w2 ++ '0' :: T)) = true := by
      unfold zeroDollarMatch
      dsimp only
      rw [if_pos rfl, hr1, if_neg hnm]
      rw [dropWhile_eq_self_of_head (fun c hc => by
        obtain rfl : '0' = c := by simpa using hc
        rfl)]
      dsimp only
      rw [if_pos rfl, hT5]
      rw [if_pos (show (('.' :: (w4 ++ ['0', '0'])) : List Char).head? = some '.' from rfl)]
      dsimp only [List.tail_cons]
      rw [hT7]
      rfl
    have hp : parenDollarMatch ('$' :: (w1 ++ [] ++ w2 ++ '0' :: T)) = none :=
      parenDollarMatch_cons_ne (by decide)
    simp only [cleanCellL, hstrip, hp, hdm, hz, if_true]
  · -- m = ['-']
    set T := w3 ++ '.' :: (w4 ++ ['0', '0']) with hTdef
    have hbig : ('$' :: (w1 ++ ['-'] ++ w2 ++ '0' :: T)) =
        ('$' :: (w1 ++ ['-'] ++ w2 ++ '0' :: (w3 ++ '.' :: (w4 ++ ['0'])))) ++ ['0'] := by
      simp [hTdef]
    have hlast : ∀ c, ('$' :: (w1 ++ ['-'] ++ w2 ++ '0' :: T)).getLast? = some c →
        isWs c = false ∧ isPunctSp c = false := by
      intro c hc
      rw [hbig, List.getLast?_concat] at hc
      obtain rfl : '0' = c := by simpa using hc
      exact ⟨rfl, rfl⟩
    have hstrip : stripWs (stripTrailingNl ('$' :: (w1 ++ ['-'] ++ w2 ++ '0' :: T))) =
        '$' :: (w1 ++ ['-'] ++ w2 ++ '0' :: T) := by
      rw [stripTrailingNl_eq_self_of_last hlast]
      apply stripWs_eq_self
      · intro c hc
        obtain rfl : '$' = c := by simpa using hc
        rfl
      · intro c hc
        exact (hlast c hc).1
    have hr1 : (w1 ++ ['-'] ++ w2 ++ '0' :: T).dropWhile isWs = '-' :: (w2 ++ '0' :: T) := by
      rw [List.append_assoc, List.append_assoc, dropWhile_append_all hw1]
      have : (['-'] ++ (w2 ++ '0' :: T)) = '-' :: (w2 ++ '0' :: T) := rfl
      rw [this]
      exact dropWhile_eq_self_of_head (fun c hc => by
        obtain rfl : '-' = c := by simpa using hc
        rfl)
    have hr3 : (w2 ++ '0' :: T).dropWhile isWs = '0' :: T := by
      rw [dropWhile_append_all hw2]
      exact dropWhile_eq_self_of_head (fun c hc => by
        obtain rfl : '0' = c := by simpa using hc
        rfl)
    have hdm : dollarMatch ('$' :: (w1 ++ ['-'] ++ w2 ++ '0' :: T)) = none := by
      unfold dollarMatch
      dsimp only
      rw [if_pos rfl, hr1]
      rw [if_pos (show (('-' :: (w2 ++ '0' :: T)) : List Char).head? = some '-' from rfl)]
      dsimp only [List.tail_cons]
      rw [if_neg]
      rintro ⟨-, habs⟩
      rw [List.dropWhile_eq_nil_iff] at habs
      refine absurd (habs '.' ?_) (by decide)
      exact List.mem_append_right _ (List.mem_cons_of_mem _ hdot)
    have hz : zeroDollarMatch ('$' :: (w1 ++ ['-'] ++ w2 ++ '0' :: T)) = true := by
      unfold zeroDollarMatch
      dsimp only
      rw [if_pos rfl, hr1]
      rw [if_pos (show (('-' :: (w2 ++ '0' :: T)) : List Char).head? = some '-' from rfl)]
      dsimp only [List.tail_cons]
      rw [hr3]
      dsimp only
      rw [if_pos rfl, hT5]
      rw [if_pos (show (('.' :: (w4 ++ ['0', '0'])) : List Char).head? = some '.' from rfl)]
      dsimp only [List.tail_cons]
      rw [hT7]
      rfl
    have hp : parenDollarMatch ('$' :: (w1 ++ ['-'] ++ w2 ++ '0' :: T)) = none :=
      parenDollarMatch_cons_ne (by decide)
    simp only [cleanCellL, hstrip, hp, hdm, hz, if_true]

/-! ## Theorems -/

/-- **C1.** For the 1-page document whose single page contains, in order,
a header box "Summary", a text box "See below.", and a table box whose
machine-detected table has header_names `["A","B"]` and cells
`[["A","B"],["x","1"],["Total","1"]]`, `transform` returns exactly one
block: a table block with title "Summary", description "See below.",
headers `["A","B"]`, rows `[["x","1"]]`, summary_row `["Total","1"]`, and
page equal to the scalar `1` (not a list). -/
theorem c1_end_to_end :
    transform docC1 =
      { filename := "f", total_pages := 1, blocks := [
        { title := "Summary", description := "See below.", btype := "table",
          data := BlockData.table [some "A", some "B"] [[some "x", some "1"]]
                    (some [some "Total", some "1"]),
          page := some (PageField.one 1) }] } := by
  decide

/-- **C3.** Currency normalization: a parenthesized `($` digits `)` cell
(optional spaces after the `$`) maps its digit run to cents, rendering
`($0.CC)` for fewer than 3 digits and `($D,DDD.CC)` otherwise; `$` with
optional `-` and a digit run renders the same way, parenthesized when
negative; every literal zero-dollar form (`$0.00`, `$ -0.00`, …, with
optional whitespace noise) normalizes to exactly `$0.00`; the fourth
conjunct spells out the `_fix_dollar` rendering (comma-grouped dollars =
digits minus the last two, read as an integer; cents = last two digits);
and the three concrete examples of the claim hold. -/
theorem c3_currency_normalization :
    (∀ (k : Nat) (ds : List Char), ds ≠ [] → (∀ c ∈ ds, Char.isDigit c = true) →
      cleanCellL ('(' :: '$' :: (List.replicate k ' ' ++ ds ++ [')'])) =
        some (fixDollarL ds true)) ∧
    (∀ (neg : Bool) (ds : List Char), ds ≠ [] → (∀ c ∈ ds, Char.isDigit c = true) →
      cleanCellL ('$' :: ((if neg then ['-'] else []) ++ ds)) = some (fixDollarL ds neg)) ∧
    (∀ w1 w2 w3 w4 m : List Char, (∀ c ∈ w1, isWs c = true) → (∀ c ∈ w2, isWs c = true) →
      (∀ c ∈ w3, isWs c = true) → (∀ c ∈ w4, isWs c = true) → m = [] ∨ m = ['-'] →
      cleanCellL ('$' :: (w1 ++ m ++ w2 ++ '0' :: (w3 ++ '.' :: (w4 ++ ['0', '0'])))) =
        some ['$', '0', '.', '0', '0']) ∧
    (∀ (ds : List Char) (neg : Bool), fixDollarL ds neg =
      (if neg then ['(', '$'] else ['$']) ++
        (if ds.length < 3 then '0' :: '.' :: zfill2 ds
         else commaGroup (digitsToNat (ds.take (ds.length - 2))) ++
           '.' :: ds.drop (ds.length - 2)) ++
        (if neg then [')'] else [])) ∧
    cleanCell (some "($100)") = some "($1.00)" ∧
    cleanCell (some "$1234") = some "$12.34" ∧
    cleanCell (some "$ -0.00") = some "$0.00" := by
  refine ⟨cleanCellL_paren_form, cleanCellL_dollar_form, cleanCellL_zero_form,
    fun ds neg => ?_, by decide, by decide, by decide⟩
  cases neg <;> by_cases h : ds.length ≤ 2
  · have h3 : ds.length < 3 := by omega
    simp [fixDollarL, h, h3]
  · have h3 : ¬ ds.length < 3 := by omega
    simp [fixDollarL, h, h3]
  · have h3 : ds.length < 3 := by omega
    simp [fixDollarL, h, h3]
  · have h3 : ¬ ds.length < 3 := by omega
    simp [fixDollarL, h, h3]

/-- Witness for C3: the three universal conjuncts applied at the concrete
inputs `($100)`, `$1234` and `$ -0.00`. -/
theorem c3_currency_normalization_witness :
    cleanCellL ('(' :: '$' :: (List.replicate 0 ' ' ++ ['1', '0', '0'] ++ [')'])) =
      some (fixDollarL ['1', '0', '0'] true) ∧
    cleanCellL ('$' :: ((if false then ['-'] else []) ++ ['1', '2', '3', '4'])) =
      some (fixDollarL ['1', '2', '3', '4'] false) ∧
    cleanCellL ('$' :: ([' '] ++ ['-'] ++ [] ++ '0' :: ([] ++ '.' :: ([] ++ ['0', '0'])))) =
      some ['$', '0', '.', '0', '0'] :=
  ⟨c3_currency_normalization.1 0 ['1', '0', '0'] (by decide) (by decide),
   c3_currency_normalization.2.1 false ['1', '2', '3', '4'] (by decide) (by decide),
   c3_currency_normalization.2.2.1 [' '] [] [] [] ['-'] (by decide) (by decide)
     (by decide) (by decide) (Or.inr rfl)⟩

/-- **C4 (counterexample).** The claim asserts
`_clean_cell("8\n5%") = "8.5%"`.  In fact the percentage regex
`^(\d+)%$` does not match `"8\n5%"` (the digit run cannot cross the
newline, and the trailing-strip regex leaves the string unchanged), so
the cell falls through to whitespace collapsing and becomes `"8 5%"`. -/
theorem c4_counterexample :
    cleanCell (some "8\n5%") = some "8 5%" ∧ ("8 5%" : String) ≠ "8.5%" := by
  decide

/-- **C4 (amended).** For every cell whose *cleaned* form (after the
trailing-strip and `strip()`) is a digit run followed by `%`: if the
original string contained a newline and the run has at least 2 digits,
the result is all-but-the-last digits, a dot, the last digit and `%`;
otherwise the cell passes through as digits + `%`.  In particular
`_clean_cell("85%") = "85%"` and `_clean_cell("85%\n") = "8.5%"`, but
`_clean_cell("8\n5%") = "8 5%"` because the raw `"8\n5%"` does not clean
to a digit run followed by `%`. -/
theorem c4_percent_normalization :
    (∀ v ds : List Char, percentMatch (stripWs (stripTrailingNl v)) = some ds →
      cleanCellL v = some (if v.contains '\n' ∧ 2 ≤ ds.length
        then ds.dropLast ++ '.' :: ds.getLastD '0' :: ['%']
        else ds ++ ['%'])) ∧
    cleanCell (some "85%") = some "85%" ∧
    cleanCell (some "85%\n") = some "8.5%" ∧
    cleanCell (some "8\n5%") = some "8 5%" := by
  refine ⟨fun v ds h => ?_, by decide, by decide, by decide⟩
  obtain ⟨hne, hdig, hshape⟩ := percentMatch_some h
  obtain ⟨d, ds', rfl⟩ : ∃ d t, ds = d :: t := by
    cases ds with
    | nil => exact absurd rfl hne
    | cons d t => exact ⟨d, t, rfl⟩
  have hd : Char.isDigit d = true := hdig d (List.mem_cons_self _ _)
  have hS : stripWs (stripTrailingNl v) = d :: (ds' ++ ['%']) := by
    rw [hshape, List.cons_append]
  rw [hS] at h
  have hp : parenDollarMatch (d :: (ds' ++ ['%'])) = none :=
    parenDollarMatch_cons_ne (ne_of_isDigit hd (by decide))
  have hdm : dollarMatch (d :: (ds' ++ ['%'])) = none :=
    dollarMatch_cons_ne (ne_of_isDigit hd (by decide))
  have hz : zeroDollarMatch (d :: (ds' ++ ['%'])) = false :=
    zeroDollarMatch_cons_ne (ne_of_isDigit hd (by decide))
  unfold cleanCellL
  dsimp only
  rw [hS]
  simp only [hp, hdm]
  rw [if_neg (show ¬ zeroDollarMatch (d :: (ds' ++ ['%'])) = true by simp [hz])]
  simp only [h]
  exact (apply_ite some _ _ _).symm

/-- Witness for C4 (amended): the universal conjunct applied to the raw
cell `"85%\n"`, whose cleaned form is the digit run `85` followed by `%`. -/
theorem c4_percent_normalization_witness :
    cleanCellL "85%\n".data = some (if "85%\n".data.contains '\n' ∧
        2 ≤ (['8', '5'] : List Char).length
      then (['8', '5'] : List Char).dropLast ++ '.' :: (['8', '5'] : List Char).getLastD '0' :: ['%']
      else ['8', '5'] ++ ['%']) :=
  c4_percent_normalization.1 "85%\n".data ['8', '5'] (by decide)

/-- **C2 (counterexample).** The claim says the merge engine merges
*exactly* when the headers match, or when the lengths match and the new
table's page is the pending table's last page `L` or `L + 1`.  Here the
pending accumulator has raw headers `["a","b"]` and last page 5, the new
table has headers `["c","d"]` (same length, different values) on page 2 —
neither condition holds — yet `_try_merge_table` merges, because the code
only requires `page ≤ L + 1`. -/
theorem c2_counterexample :
    mergeStateC2.pending.map (fun pt => (pt.rawHeaders, pt.page)) =
        some ([some "a", some "b"], [5]) ∧
    mergeStateC2.pg = 2 ∧
    tryMergeTable mergeStateC2 [some "c", some "d"] [[some "u", some "v"]]
        [[some "u", some "v"]] mergeTabC2 ≠ none ∧
    ([some "c", some "d"] : List Cell) ≠ [some "a", some "b"] ∧
    (2 : Int) ≠ 5 ∧ (2 : Int) ≠ 5 + 1 := by
  decide

/-- **C2 (amended).** With a pending accumulator `pt`, `_try_merge_table`
merges exactly when the new headers equal `pt`'s original header row, or
when they have the same length and the new table's page is *at most*
`L + 1` where `L` is `pt`'s last page (the claim's "is `L` or `L + 1`"
holds only when pages arrive in ascending order).  On a merge: with an
exact header match only the rows different from the header row are folded
in, otherwise all resolved rows are; each folded row is classified as
summary (last one wins) or data; the page is appended if not already
present; a truthy trailing text overwrites the stored one. -/
theorem c2_merge_characterization (s : TState) (pt : PendingTable)
    (headers : List Cell) (dataRows allRows : List Row) (tab : RawTable)
    (hpt : s.pending = some pt) :
    (tryMergeTable s headers dataRows allRows tab ≠ none ↔
      (pt.rawHeaders = headers ∨
        (pt.rawHeaders.length = headers.length ∧ s.pg ≤ pt.page.getLastD 0 + 1))) ∧
    (∀ s2, tryMergeTable s headers dataRows allRows tab = some s2 →
      s2 = { s with pending := some { pt with
        rows := (foldRowsSummary (pt.rows, pt.summaryRow)
                  (if pt.rawHeaders = headers then dataRows else allRows)).1,
        summaryRow := (foldRowsSummary (pt.rows, pt.summaryRow)
                  (if pt.rawHeaders = headers then dataRows else allRows)).2,
        page := if s.pg ∈ pt.page then pt.page else pt.page ++ [s.pg],
        trailing := if truthyOptStr tab.trailing_text then tab.trailing_text
                    else pt.trailing } }) := by
  have hmatch : headersMatch pt.rawHeaders headers = true ↔ pt.rawHeaders = headers := by
    unfold headersMatch
    constructor
    · intro h
      simp only [Bool.and_eq_true, decide_eq_true_eq] at h
      exact h.2
    · intro h
      subst h
      simp
  unfold tryMergeTable
  rw [hpt]
  dsimp only
  by_cases hc : headersMatch pt.rawHeaders headers = true ∨
      (pt.rawHeaders.length = headers.length ∧ s.pg ≤ pt.page.getLastD 0 + 1)
  · rw [if_pos hc]
    constructor
    · simp only [ne_eq, reduceCtorEq, not_false_eq_true, true_iff]
      rcases hc with hc | hc
      · exact Or.inl (hmatch.mp hc)
      · exact Or.inr hc
    · intro s2 hs2
      have : (if headersMatch pt.rawHeaders headers = true then dataRows else allRows) =
          (if pt.rawHeaders = headers then dataRows else allRows) := by
        by_cases hm : pt.rawHeaders = headers
        · rw [if_pos hm, if_pos (hmatch.mpr hm)]
        · rw [if_neg hm, if_neg (fun h => hm (hmatch.mp h))]
      rw [← this]
      exact (Option.some_inj.mp hs2).symm
  · rw [if_neg hc]
    constructor
    · simp only [ne_eq, not_true_eq_false, false_iff]
      intro h
      apply hc
      rcases h with h | h
      · exact Or.inl (hmatch.mpr h)
      · exact Or.inr h
    · intro s2 hs2
      exact absurd hs2 (by simp)

/-- Witness for C2 (amended): a concrete same-length continuation merge on
the pending state with last page 5 and current page 2. -/
theorem c2_merge_characterization_witness :
    tryMergeTable mergeStateC2 [some "c", some "d"] [[some "u", some "v"]]
        [[some "u", some "v"]] mergeTabC2 ≠ none :=
  (c2_merge_characterization mergeStateC2
      { page := [5], title := none, description := none,
        headers := [some "a", some "b"], rows := [[some "r", some "s"]],
        summaryRow := none, rawHeaders := [some "a", some "b"], trailing := none }
      [some "c", some "d"] [[some "u", some "v"]] [[some "u", some "v"]]
      mergeTabC2 rfl).1.mpr (Or.inr (by decide))

/-- **C5 (counterexample).** The claim says a row containing the cell
"Total Income Statement for January" is NOT classified as summary (the
spec asserts the cell exceeds 60 characters).  The cell is only 34
characters long, so `_is_summary_row` finds "total" as a whole word and
classifies the row as summary. -/
theorem c5_counterexample :
    isSummaryRow [some "Total Income Statement for January"] = true ∧
    "Total Income Statement for January".length = 34 := by
  decide

/-- **C5 (amended).** `_is_summary_row` returns true for a row exactly
when some non-empty cell of at most 60 characters (after trimming)
contains, as a whole word and case-insensitively, one of the fixed
keywords; a row containing "Grand Total" is summary, and — correcting the
claim — so is a row containing "Total Income Statement for January"
(34 characters, within the 60-character bound). -/
theorem c5_summary_row_characterization :
    (∀ row : Row, isSummaryRow row = true ↔
      ∃ s : String, some s ∈ row ∧ s ≠ "" ∧ (stripWs s.data).length ≤ 60 ∧
        ∃ kw ∈ SUMMARY_KEYWORDS,
          containsWord kw.data ((stripWs s.data).map Char.toLower) = true) ∧
    isSummaryRow [some "Grand Total"] = true ∧
    isSummaryRow [some "Total Income Statement for January"] = true := by
  refine ⟨fun row => ?_, by decide, by decide⟩
  unfold isSummaryRow
  rw [List.any_eq_true]
  constructor
  · rintro ⟨c, hc, hhit⟩
    match c with
    | none => simp [summaryCellHit] at hhit
    | some s =>
      unfold summaryCellHit at hhit
      dsimp only at hhit
      by_cases h1 : s = ""
      · rw [if_pos h1] at hhit
        exact absurd hhit (by simp)
      · rw [if_neg h1] at hhit
        by_cases h2 : 60 < ((stripWs s.data).map Char.toLower).length
        · rw [if_pos h2] at hhit
          exact absurd hhit (by simp)
        · rw [if_neg h2] at hhit
          rw [List.any_eq_true] at hhit
          obtain ⟨kw, hkw, hcw⟩ := hhit
          refine ⟨s, hc, h1, ?_, kw, hkw, hcw⟩
          simpa using Nat.le_of_not_lt h2
  · rintro ⟨s, hs, h1, h2, kw, hkw, hcw⟩
    refine ⟨some s, hs, ?_⟩
    unfold summaryCellHit
    dsimp only
    rw [if_neg h1]
    rw [if_neg (by simpa using Nat.not_lt.mpr h2)]
    rw [List.any_eq_true]
    exact ⟨kw, hkw, hcw⟩

/-- **C6.** A table's full row set qualifies as key-value exactly when it
has at least 2 rows and at least 2 columns and every even-indexed column
has, in at least half the rows, a truthy cell whose `rstrip()` ends with
a colon; and extraction on `[["Name:", "Acme"], ["Date:", "2024-01-01"]]`
yields the mapping Name ↦ Acme, Date ↦ 2024-01-01. -/
theorem c6_key_value_table :
    (∀ cells : List Row, isKeyValueTable cells = true ↔
      (2 ≤ cells.length ∧ 2 ≤ (cells.headD []).length ∧
        ∀ col < (cells.headD []).length, col % 2 = 0 →
          cells.length ≤ 2 * cells.countP (fun row => colonKeyCell (cellAt row col)))) ∧
    isKeyValueTable [[some "Name:", some "Acme"], [some "Date:", some "2024-01-01"]] = true ∧
    extractKeyValues [[some "Name:", some "Acme"], [some "Date:", some "2024-01-01"]] =
      [("Name", some "Acme"), ("Date", some "2024-01-01")] := by
  refine ⟨fun cells => ?_, by decide, by decide⟩
  match cells with
  | [] => simp [isKeyValueTable]
  | r0 :: rest =>
    simp only [List.headD_cons]
    unfold isKeyValueTable
    dsimp only
    by_cases h1 : (r0 :: rest).length < 2 ∨ r0.length < 2
    · rw [if_pos h1]
      constructor
      · intro h
        exact absurd h (by simp)
      · rintro ⟨ha, hb, -⟩
        rcases h1 with h | h <;> omega
    · rw [if_neg h1]
      push_neg at h1
      rw [List.all_eq_true]
      constructor
      · intro h
        refine ⟨h1.1, h1.2, fun col hcol heven => ?_⟩
        have := h col (List.mem_range.mpr hcol)
        rw [if_pos heven] at this
        exact of_decide_eq_true this
      · rintro ⟨-, -, h3⟩ col hcol
        by_cases he : col % 2 = 0
        · rw [if_pos he]
          exact decide_eq_true (h3 col (List.mem_range.mp hcol) he)
        · rw [if_neg he]

/-- **C7 (counterexample).** On OCR text with 7 short unique lines
followed by 11 duplicated lines, the claim's unbounded maximal-run
detection (`specDetectImageTable`, written from the spec's words) collects
7 headers and rejects (11 remaining < 14), but the code's 6-line scan
window stops at 6 headers and accepts (12 remaining ≥ 12). -/
theorem c7_counterexample :
    detectImageTable ocrC7 = some ["a", "b", "c", "d", "e", "f"] ∧
    specDetectImageTable ocrC7 = none := by
  decide

/-- **C7 (amended).** `_detect_image_table` behaves exactly as the claim
describes with one amendment: the run of short, unique lines is collected
from a scan window of at most 6 lines (the maximal run truncated to its
first 6 elements), and the 2-header minimum and remaining-lines check
apply to that truncated run. -/
theorem c7_detect_header_cap (t : String) :
    detectImageTable t = specDetectImageTableCapped t := by
  unfold detectImageTable specDetectImageTableCapped
  simp only [takeWhile_take_comm]

theorem flushText_fields (s : TState) :
    (flushText s).lastImgHeaders = s.lastImgHeaders ∧
    (flushText s).pageImages = s.pageImages ∧
    (flushText s).pg = s.pg ∧
    (flushText s).heading = s.heading ∧
    (flushText s).pending = s.pending ∧
    (flushText s).pageTables = s.pageTables := by
  unfold flushText
  split <;> exact ⟨rfl, rfl, rfl, rfl, rfl, rfl⟩

theorem flushPendingTable_fields (s : TState) :
    (flushPendingTable s).lastImgHeaders = s.lastImgHeaders ∧
    (flushPendingTable s).pageImages = s.pageImages ∧
    (flushPendingTable s).pg = s.pg ∧
    (flushPendingTable s).heading = s.heading ∧
    (flushPendingTable s).textBuf = s.textBuf ∧
    (flushPendingTable s).pageTables = s.pageTables := by
  unfold flushPendingTable
  split <;> exact ⟨rfl, rfl, rfl, rfl, rfl, rfl⟩

theorem resolveTableData_snd_fields (s : TState) (box : Box) :
    (resolveTableData s box).2.lastImgHeaders = s.lastImgHeaders ∧
    (resolveTableData s box).2.pageImages = s.pageImages ∧
    (resolveTableData s box).2.pg = s.pg ∧
    (resolveTableData s box).2.blocks = s.blocks ∧
    (resolveTableData s box).2.pending = s.pending := by
  unfold resolveTableData
  split
  · exact ⟨rfl, rfl, rfl, rfl, rfl⟩
  · split
    · exact ⟨rfl, rfl, rfl, rfl, rfl⟩
    · exact ⟨rfl, rfl, rfl, rfl, rfl⟩

theorem resolveTitleDescription_fields (s : TState) :
    (resolveTitleDescription s).2.2.lastImgHeaders = s.lastImgHeaders ∧
    (resolveTitleDescription s).2.2.pageImages = s.pageImages ∧
    (resolveTitleDescription s).2.2.pg = s.pg ∧
    (resolveTitleDescription s).2.2.blocks = s.blocks ∧
    (resolveTitleDescription s).2.2.pending = s.pending := by
  unfold resolveTitleDescription
  split
  · split
    · exact ⟨rfl, rfl, rfl, rfl, rfl⟩
    · exact ⟨rfl, rfl, rfl, rfl, rfl⟩
  · exact ⟨rfl, rfl, rfl, rfl, rfl⟩

theorem tryMergeTable_some_fields {s : TState} {headers : List Cell}
    {dataRows allRows : List Row} {tab : RawTable} {s2 : TState}
    (h : tryMergeTable s headers dataRows allRows tab = some s2) :
    s2.lastImgHeaders = s.lastImgHeaders ∧ s2.pageImages = s.pageImages ∧
    s2.pg = s.pg := by
  unfold tryMergeTable at h
  cases hp : s.pending with
  | none =>
    rw [hp] at h
    exact absurd h (by simp)
  | some pt =>
    rw [hp] at h
    dsimp only at h
    by_cases hc : headersMatch pt.rawHeaders headers = true ∨
        (pt.rawHeaders.length = headers.length ∧ s.pg ≤ pt.page.getLastD 0 + 1)
    · rw [if_pos hc] at h
      obtain rfl := Option.some_inj.mp h
      exact ⟨rfl, rfl, rfl⟩
    · rw [if_neg hc] at h
      exact absurd h (by simp)

theorem onTable_lastImg (s : TState) (box : Box) :
    (onTable s box).lastImgHeaders = none := by
  unfold onTable
  dsimp only
  cases hres : resolveTableData { s with lastImgHeaders := none } box with
  | mk o s2 =>
    have hs2 : s2.lastImgHeaders = none := by
      have := (resolveTableData_snd_fields { s with lastImgHeaders := none } box).1
      rw [hres] at this
      exact this
    cases o with
    | none => exact hs2
    | some trip =>
      obtain ⟨headers, allRows, tab⟩ := trip
      dsimp only
      cases hrt : resolveTitleDescription s2 with
      | mk title rest =>
        obtain ⟨description, s3⟩ := rest
        have hs3 : s3.lastImgHeaders = none := by
          have := (resolveTitleDescription_fields s2).1
          rw [hrt] at this
          exact this.trans hs2
        dsimp only
        by_cases hkv : isKeyValueTable allRows = true
        · rw [if_pos hkv]
          exact (flushPendingTable_fields s3).1.trans hs3
        · rw [if_neg hkv]
          cases hm : tryMergeTable s3 headers (allRows.filter fun r => decide (r ≠ headers))
              allRows tab with
          | some s4 => exact (tryMergeTable_some_fields hm).1.trans hs3
          | none =>
            dsimp only
            exact (flushPendingTable_fields s3).1.trans hs3

theorem onPicture_no_headers (s : TState) (b : Box)
    (h0 : s.lastImgHeaders = none)
    (hnd : detectImageTable (matchOcrText s b) = none) :
    onPicture s b = { flushPendingTable (flushText s) with
      blocks := (flushPendingTable (flushText s)).blocks ++
        [makeBlock s.heading (some "") "image_text"
          (BlockData.text (matchOcrText s b)) (some (PageField.one s.pg))] } := by
  have himg : (flushPendingTable (flushText s)).pageImages = s.pageImages :=
    (flushPendingTable_fields (flushText s)).2.1.trans (flushText_fields s).2.1
  have hocr : matchOcrText (flushPendingTable (flushText s)) b = matchOcrText s b := by
    unfold matchOcrText
    rw [himg]
  have hlast : (flushPendingTable (flushText s)).lastImgHeaders = none :=
    ((flushPendingTable_fields (flushText s)).1.trans (flushText_fields s).1).trans h0
  have hhead : (flushPendingTable (flushText s)).heading = s.heading :=
    (flushPendingTable_fields (flushText s)).2.2.2.1.trans (flushText_fields s).2.2.2.1
  have hpg : (flushPendingTable (flushText s)).pg = s.pg :=
    (flushPendingTable_fields (flushText s)).2.2.1.trans (flushText_fields s).2.2.1
  unfold onPicture
  dsimp only
  rw [hocr, hnd]
  dsimp only [Option.getD]
  rw [if_neg (by simp)]
  rw [hlast]
  dsimp only [Option.getD]
  rw [if_neg (by simp)]
  rw [hhead, hpg]

theorem processBox_table_lastImg (s : TState) (b : Box) (h : b.boxclass = "table") :
    (processBox s b).lastImgHeaders = none := by
  unfold processBox
  rw [if_neg (by rw [h]; decide), if_pos h]
  exact onTable_lastImg _ _

theorem processBox_preserves_no_imgHeaders (s : TState) (b : Box)
    (h0 : s.lastImgHeaders = none)
    (hnd : b.boxclass = "picture" → detectImageTable (matchOcrText s b) = none) :
    (processBox s b).lastImgHeaders = none := by
  unfold processBox
  by_cases h1 : b.boxclass = "section-header" ∨ b.boxclass = "header"
  · rw [if_pos h1]
    unfold onHeading
    exact ((flushPendingTable_fields (flushText s)).1.trans (flushText_fields s).1).trans h0
  · rw [if_neg h1]
    by_cases h2 : b.boxclass = "table"
    · rw [if_pos h2]
      exact onTable_lastImg _ _
    · rw [if_neg h2]
      by_cases h3 : b.boxclass = "picture"
      · rw [if_pos h3]
        rw [onPicture_no_headers s b h0 (hnd h3)]
        exact ((flushPendingTable_fields (flushText s)).1.trans (flushText_fields s).1).trans h0
      · rw [if_neg h3]
        by_cases h4 : (b.boxclass = "text" ∨ b.boxclass = "list-item") ∧ stripStr b.text ≠ ""
        · rw [if_pos h4]
          unfold onText
          split
          · exact h0
          · exact h0
        · rw [if_neg h4]
          exact h0

theorem foldl_preserves_no_imgHeaders :
    ∀ (bs : List Box) (s : TState), s.lastImgHeaders = none →
      noDetectPics s bs = true → (bs.foldl processBox s).lastImgHeaders = none := by
  intro bs
  induction bs with
  | nil => intro s h0 _; exact h0
  | cons b rest ih =>
    intro s h0 hnd
    unfold noDetectPics at hnd
    rw [Bool.and_eq_true] at hnd
    exact ih (processBox s b)
      (processBox_preserves_no_imgHeaders s b h0 (of_decide_eq_true hnd.1)) hnd.2

/-- **C10.** Processing any table layout box clears the stored
image-table continuation headers (first conjunct: after `_on_table`, in
every branch, the stored headers are `None`).  Consequently (second
conjunct), a picture box whose own OCR text does not look like a table,
preceded by a table box with no intervening image_table-producing
picture, always emits an `image_text` block carrying the raw OCR text —
never a continuation `image_table`. -/
theorem c10_table_clears_continuation :
    (∀ (s : TState) (b : Box), b.boxclass = "table" →
      (processBox s b).lastImgHeaders = none) ∧
    (∀ (s : TState) (tbox : Box) (mid : List Box) (pbox : Box),
      tbox.boxclass = "table" →
      noDetectPics (processBox s tbox) mid = true →
      pbox.boxclass = "picture" →
      detectImageTable
        (matchOcrText (mid.foldl processBox (processBox s tbox)) pbox) = none →
      (processBox (mid.foldl processBox (processBox s tbox)) pbox).blocks =
        (flushPendingTable (flushText
            (mid.foldl processBox (processBox s tbox)))).blocks ++
          [makeBlock (mid.foldl processBox (processBox s tbox)).heading (some "")
            "image_text"
            (BlockData.text
              (matchOcrText (mid.foldl processBox (processBox s tbox)) pbox))
            (some (PageField.one (mid.foldl processBox (processBox s tbox)).pg))]) := by
  constructor
  · exact processBox_table_lastImg
  · intro s tbox mid pbox htb hnd hpb hdet
    have h1 : (processBox s tbox).lastImgHeaders = none :=
      processBox_table_lastImg s tbox htb
    have h2 : (mid.foldl processBox (processBox s tbox)).lastImgHeaders = none :=
      foldl_preserves_no_imgHeaders mid (processBox s tbox) h1 hnd
    set s2 := mid.foldl processBox (processBox s tbox) with hs2
    have : processBox s2 pbox = onPicture s2 pbox := by
      unfold processBox
      rw [if_neg (by rw [hpb]; decide), if_neg (by rw [hpb]; decide), if_pos hpb]
    rw [this, onPicture_no_headers s2 pbox h2 hdet]

/-- Witness for C10: a table box then a picture box on an image-free
state; the picture emits an `image_text` block with empty OCR text. -/
theorem c10_table_clears_continuation_witness :
    (processBox (processBox initState (mkBox "table")) (mkBox "picture")).blocks =
      (flushPendingTable (flushText
          (([] : List Box).foldl processBox (processBox initState (mkBox "table"))))).blocks ++
        [makeBlock (([] : List Box).foldl processBox
              (processBox initState (mkBox "table"))).heading (some "") "image_text"
          (BlockData.text (matchOcrText (([] : List Box).foldl processBox
              (processBox initState (mkBox "table"))) (mkBox "picture")))
          (some (PageField.one (([] : List Box).foldl processBox
              (processBox initState (mkBox "table"))).pg))] :=
  c10_table_clears_continuation.2 initState (mkBox "table") [] (mkBox "picture")
    rfl (by decide) rfl (by decide)

theorem foldRowsSummary_no_summary :
    ∀ (rows : List Row) (init : List Row × Option Row),
      (∀ r ∈ init.1, isSummaryRow r = false) →
      ∀ r ∈ (foldRowsSummary init rows).1, isSummaryRow r = false := by
  intro rows
  induction rows with
  | nil => intro init h r hr; exact h r hr
  | cons row rest ih =>
    intro init h r hr
    unfold foldRowsSummary at hr
    rw [List.foldl_cons] at hr
    by_cases hs : isSummaryRow row = true
    · rw [if_pos hs] at hr
      exact ih (init.1, some row) h r hr
    · rw [if_neg hs] at hr
      refine ih (init.1 ++ [row], init.2) ?_ r hr
      intro r2 hr2
      rcases List.mem_append.mp hr2 with hm | hm
      · exact h r2 hm
      · simp only [List.mem_singleton] at hm
        subst hm
        exact Bool.not_eq_true _ ▸ hs

theorem parseImageTable_rows_ok (t : String) (headers : List String) (sk : Bool) :
    ∀ r ∈ (parseImageTable t headers sk).1, isSummaryRow r = false := by
  unfold parseImageTable
  exact foldRowsSummary_no_summary _ ([], none) (by simp)

theorem flushPendingTable_pending_none (s : TState) :
    (flushPendingTable s).pending = none := by
  unfold flushPendingTable
  split
  · next hp => exact hp
  · rfl

theorem flushText_stateOk {s : TState} (h : stateOk s) : stateOk (flushText s) := by
  obtain ⟨hb, hp⟩ := h
  unfold flushText
  split
  · constructor
    · intro b hb2
      rcases List.mem_append.mp hb2 with hm | hm
      · exact hb b hm
      · simp only [List.mem_singleton] at hm
        subst hm
        intro headers rows sr hdata
        exact absurd hdata (by simp [makeBlock])
    · exact hp
  · exact ⟨hb, hp⟩

theorem flushPendingTable_stateOk {s : TState} (h : stateOk s) :
    stateOk (flushPendingTable s) := by
  obtain ⟨hb, hp⟩ := h
  unfold flushPendingTable
  cases hpend : s.pending with
  | none => exact ⟨hb, hp⟩
  | some pt =>
    dsimp only
    constructor
    · intro b hb2
      rcases List.mem_append.mp hb2 with hm | hm
      · exact hb b hm
      · simp only [List.mem_singleton] at hm
        subst hm
        intro headers rows sr hdata
        simp only [makeBlock, BlockData.table.injEq] at hdata
        obtain ⟨-, hrows, -⟩ := hdata
        have hrows2 : rows = pt.rows := by
          rw [← hrows]
          split
          · split
            · rfl
            · rfl
          · rfl
        rw [hrows2]
        exact hp pt hpend
    · intro pt2 hpt2
      exact absurd hpt2 (by simp)

theorem tryMergeTable_some_stateOk {s : TState} {headers : List Cell}
    {dataRows allRows : List Row} {tab : RawTable} {s2 : TState}
    (hok : stateOk s) (h : tryMergeTable s headers dataRows allRows tab = some s2) :
    stateOk s2 := by
  unfold tryMergeTable at h
  cases hpend : s.pending with
  | none =>
    rw [hpend] at h
    exact absurd h (by simp)
  | some pt =>
    rw [hpend] at h
    dsimp only at h
    by_cases hc : headersMatch pt.rawHeaders headers = true ∨
        (pt.rawHeaders.length = headers.length ∧ s.pg ≤ pt.page.getLastD 0 + 1)
    · rw [if_pos hc] at h
      obtain rfl := Option.some_inj.mp h
      refine ⟨hok.1, fun pt2 hpt2 => ?_⟩
      simp only [Option.some.injEq] at hpt2
      subst hpt2
      exact foldRowsSummary_no_summary _ (pt.rows, pt.summaryRow) (hok.2 pt hpend)
    · rw [if_neg hc] at h
      exact absurd h (by simp)

theorem onHeading_stateOk {s : TState} (text : String) (h : stateOk s) :
    stateOk (onHeading s text) := by
  have h2 := flushPendingTable_stateOk (flushText_stateOk h)
  unfold onHeading
  exact ⟨h2.1, h2.2⟩

theorem onText_stateOk {s : TState} (text : String) (h : stateOk s) :
    stateOk (onText s text) := by
  unfold onText
  split
  · exact ⟨h.1, h.2⟩
  · exact ⟨h.1, h.2⟩

theorem onTable_stateOk {s : TState} (box : Box) (h : stateOk s) :
    stateOk (onTable s box) := by
  have h1 : stateOk { s with lastImgHeaders := none } := ⟨h.1, h.2⟩
  unfold onTable
  dsimp only
  cases hres : resolveTableData { s with lastImgHeaders := none } box with
  | mk o s2 =>
    have hs2 : stateOk s2 := by
      have hbf := (resolveTableData_snd_fields { s with lastImgHeaders := none } box).2.2.2
      rw [hres] at hbf
      exact ⟨hbf.1 ▸ h1.1, hbf.2 ▸ h1.2⟩
    cases o with
    | none => exact hs2
    | some trip =>
      obtain ⟨headers, allRows, tab⟩ := trip
      dsimp only
      cases hrt : resolveTitleDescription s2 with
      | mk title rest =>
        obtain ⟨description, s3⟩ := rest
        have hs3 : stateOk s3 := by
          have hbf := (resolveTitleDescription_fields s2).2.2.2
          rw [hrt] at hbf
          exact ⟨hbf.1 ▸ hs2.1, hbf.2 ▸ hs2.2⟩
        dsimp only
        by_cases hkv : isKeyValueTable allRows = true
        · rw [if_pos hkv]
          have h4 := flushPendingTable_stateOk hs3
          constructor
          · intro b hb2
            rcases List.mem_append.mp hb2 with hm | hm
            · exact h4.1 b hm
            · simp only [List.mem_singleton] at hm
              subst hm
              intro headers2 rows2 sr2 hdata
              exact absurd hdata (by simp [makeBlock])
          · intro pt hpt
            rw [show ({ flushPendingTable s3 with blocks := (flushPendingTable s3).blocks ++
                [makeBlock title description "table"
                  (BlockData.keyValue (extractKeyValues allRows))
                  (some (PageField.one (flushPendingTable s3).pg))] } : TState).pending =
                (flushPendingTable s3).pending from rfl, flushPendingTable_pending_none] at hpt
            exact absurd hpt (by simp)
        · rw [if_neg hkv]
          cases hm : tryMergeTable s3 headers (allRows.filter fun r => decide (r ≠ headers))
              allRows tab with
          | some s4 => exact tryMergeTable_some_stateOk hs3 hm
          | none =>
            dsimp only
            have h4 := flushPendingTable_stateOk hs3
            constructor
            · exact h4.1
            · intro pt hpt
              simp only [Option.some.injEq] at hpt
              subst hpt
              exact foldRowsSummary_no_summary _ ([], none) (by simp)


theorem onPicture_stateOk {s : TState} (box : Box) (h : stateOk s) :
    stateOk (onPicture s box) := by
  have h2 := flushPendingTable_stateOk (flushText_stateOk h)
  have hpn := flushPendingTable_pending_none (flushText s)
  unfold onPicture
  by_cases h3 : ((detectImageTable
      (matchOcrText (flushPendingTable (flushText s)) box)).getD []) ≠ []
  · rw [if_pos h3]
    constructor
    · intro b hb2
      rcases List.mem_append.mp hb2 with hm | hm
      · exact h2.1 b hm
      · simp only [List.mem_singleton] at hm
        subst hm
        intro headers2 rows2 sr2 hdata
        simp only [makeBlock, BlockData.table.injEq] at hdata
        obtain ⟨-, hrows, -⟩ := hdata
        rw [← hrows]
        exact parseImageTable_rows_ok _ _ _
    · intro pt hpt
      rw [show (_ : TState).pending = (flushPendingTable (flushText s)).pending from rfl,
        hpn] at hpt
      exact absurd hpt (by simp)
  · rw [if_neg h3]
    dsimp only
    by_cases h4 : ((flushPendingTable (flushText s)).lastImgHeaders.getD []) ≠ [] ∧
        matchOcrText (flushPendingTable (flushText s)) box ≠ ""
    · rw [if_pos h4]
      by_cases h5 : (parseImageTable (matchOcrText (flushPendingTable (flushText s)) box)
          ((flushPendingTable (flushText s)).lastImgHeaders.getD []) true).1 ≠ []
      · rw [if_pos h5]
        constructor
        · intro b hb2
          rcases List.mem_append.mp hb2 with hm | hm
          · exact h2.1 b hm
          · simp only [List.mem_singleton] at hm
            subst hm
            intro headers2 rows2 sr2 hdata
            simp only [makeBlock, BlockData.table.injEq] at hdata
            obtain ⟨-, hrows, -⟩ := hdata
            rw [← hrows]
            exact parseImageTable_rows_ok _ _ _
        · intro pt hpt
          rw [show (_ : TState).pending = (flushPendingTable (flushText s)).pending from rfl,
            hpn] at hpt
          exact absurd hpt (by simp)
      · rw [if_neg h5]
        constructor
        · intro b hb2
          rcases List.mem_append.mp hb2 with hm | hm
          · exact h2.1 b hm
          · simp only [List.mem_singleton] at hm
            subst hm
            intro headers2 rows2 sr2 hdata
            exact absurd hdata (by simp [makeBlock])
        · intro pt hpt
          rw [show (_ : TState).pending = (flushPendingTable (flushText s)).pending from rfl,
            hpn] at hpt
          exact absurd hpt (by simp)
    · rw [if_neg h4]
      constructor
      · intro b hb2
        rcases List.mem_append.mp hb2 with hm | hm
        · exact h2.1 b hm
        · simp only [List.mem_singleton] at hm
          subst hm
          intro headers2 rows2 sr2 hdata
          exact absurd hdata (by simp [makeBlock])
      · intro pt hpt
        rw [show (_ : TState).pending = (flushPendingTable (flushText s)).pending from rfl,
          hpn] at hpt
        exact absurd hpt (by simp)

theorem processBox_stateOk {s : TState} (b : Box) (h : stateOk s) :
    stateOk (processBox s b) := by
  unfold processBox
  by_cases h1 : b.boxclass = "section-header" ∨ b.boxclass = "header"
  · rw [if_pos h1]
    exact onHeading_stateOk _ h
  · rw [if_neg h1]
    by_cases h2 : b.boxclass = "table"
    · rw [if_pos h2]
      exact onTable_stateOk _ h
    · rw [if_neg h2]
      by_cases h3 : b.boxclass = "picture"
      · rw [if_pos h3]
        exact onPicture_stateOk _ h
      · rw [if_neg h3]
        by_cases h4 : (b.boxclass = "text" ∨ b.boxclass = "list-item") ∧ stripStr b.text ≠ ""
        · rw [if_pos h4]
          exact onText_stateOk _ h
        · rw [if_neg h4]
          exact h

theorem foldl_processBox_stateOk :
    ∀ (bs : List Box) (s : TState), stateOk s → stateOk (bs.foldl processBox s) := by
  intro bs
  induction bs with
  | nil => intro s h; exact h
  | cons b rest ih =>
    intro s h
    rw [List.foldl_cons]
    exact ih (processBox s b) (processBox_stateOk b h)

theorem processPage_stateOk {s : TState} (page : RawPage) (h : stateOk s) :
    stateOk (processPage s page) := by
  unfold processPage
  exact foldl_processBox_stateOk page.layout_boxes _ ⟨h.1, h.2⟩

/-- **C8 (counterexample).** The claim says a table/image_table block's
rows never contain a row equal to the block's headers.  In `docC8` the
second picture's OCR text is exactly the previous image table's two
header lines; the continuation heuristic reuses those headers and folds
the two lines into a single data row equal to the headers. -/
theorem c8_counterexample :
    ((transform docC8).blocks.get? 1).map (fun b => (b.btype, b.data)) =
      some ("image_table",
        BlockData.table [some "Q1", some "Q2"] [[some "Q1", some "Q2"]] none) ∧
    ([some "Q1", some "Q2"] : Row) ∈ [[some "Q1", some "Q2"]] := by
  decide

/-- **C8 (amended).** For every input document, every output block whose
data is tabular (`table` and `image_table` blocks) has a `rows` list
containing no row that `_is_summary_row` classifies as a summary row;
the block carries at most one `summary_row` (a single optional field by
construction).  The claim's further assertion that `rows` never contains
the header row is false: a column-count continuation merge or an
image-table continuation can insert a row equal to the headers
(see the counterexample). -/
theorem c8_no_summary_in_rows (raw : RawDoc) :
    ∀ b ∈ (transform raw).blocks, ∀ headers rows sr,
      b.data = BlockData.table headers rows sr →
      ∀ r ∈ rows, isSummaryRow r = false := by
  have h0 : stateOk initState := ⟨by simp [initState], by simp [initState]⟩
  have h1 : stateOk (raw.pages.foldl processPage initState) := by
    have : ∀ (ps : List RawPage) (s0 : TState), stateOk s0 →
        stateOk (ps.foldl processPage s0) := by
      intro ps
      induction ps with
      | nil => intro s0 hs; exact hs
      | cons p rest ih =>
        intro s0 hs
        rw [List.foldl_cons]
        exact ih (processPage s0 p) (processPage_stateOk p hs)
    exact this raw.pages initState h0
  have h2 := flushPendingTable_stateOk (flushText_stateOk h1)
  intro b hb headers rows sr hdata r hr
  exact h2.1 b hb headers rows sr hdata r hr

/-- Witness for C8 (amended): in the transform of the end-to-end
document, the single table block's only row is not a summary row. -/
theorem c8_no_summary_in_rows_witness :
    isSummaryRow [some "x", some "1"] = false :=
  c8_no_summary_in_rows docC1
    { title := "Summary", description := "See below.", btype := "table",
      data := BlockData.table [some "A", some "B"] [[some "x", some "1"]]
                (some [some "Total", some "1"]),
      page := some (PageField.one 1) }
    (by decide) [some "A", some "B"] [[some "x", some "1"]]
    (some [some "Total", some "1"]) rfl [some "x", some "1"] (by decide)

theorem isDigit_false_of_isWs {c : Char} (h : isWs c = true) : Char.isDigit c = false := by
  unfold isWs at h
  simp only [Bool.or_eq_true, decide_eq_true_eq] at h
  rcases h with ((((rfl | rfl) | rfl) | rfl) | rfl) | rfl <;> rfl

theorem dropWhile_eq_self_of_all {p : Char → Bool} {l : List Char}
    (h : ∀ c ∈ l, p c = false) : l.dropWhile p = l := by
  cases l with
  | nil => rfl
  | cons a t =>
    exact dropWhile_eq_self_of_head fun c hc => by
      obtain rfl : a = c := by simpa using hc
      exact h a (List.mem_cons_self _ _)

theorem collapse_eq_self_of_no_ws :
    ∀ {l : List Char}, (∀ c ∈ l, isWs c = false) → collapseWsAux false l = l := by
  intro l
  induction l with
  | nil => intro _; rfl
  | cons a t ih =>
    intro h
    unfold collapseWsAux
    rw [if_neg (by simp [h a (List.mem_cons_self _ _)])]
    rw [ih fun c hc => h c (List.mem_cons_of_mem a hc)]

theorem mem_collapse_ws_eq_space :
    ∀ (prev : Bool) (l : List Char) (c : Char), c ∈ collapseWsAux prev l →
      isWs c = true → c = ' ' := by
  intro prev l
  induction l generalizing prev with
  | nil => intro c hc _; simp [collapseWsAux] at hc
  | cons a t ih =>
    intro c hc hw
    unfold collapseWsAux at hc
    by_cases ha : isWs a = true
    · rw [if_pos ha] at hc
      cases prev with
      | true => exact ih true c hc hw
      | false =>
        rcases List.mem_cons.mp hc with rfl | hc2
        · rfl
        · exact ih true c hc2 hw
    · rw [if_neg ha] at hc
      rcases List.mem_cons.mp hc with rfl | hc2
      · exact absurd hw (by simp [ha])
      · exact ih false c hc2 hw

theorem collapse_false_ne_nil {l : List Char} (h : l ≠ []) :
    collapseWsAux false l ≠ [] := by
  cases l with
  | nil => exact absurd rfl h
  | cons a t =>
    unfold collapseWsAux
    by_cases ha : isWs a = true
    · rw [if_pos ha]
      simp
    · rw [if_neg ha]
      simp

theorem collapseWsAux_cons (prev : Bool) (a : Char) (t : List Char) :
    collapseWsAux prev (a :: t) =
      if isWs a = true then
        (if prev then collapseWsAux true t else ' ' :: collapseWsAux true t)
      else a :: collapseWsAux false t := rfl

theorem collapse_cons_ws {a : Char} (t : List Char) (ha : isWs a = true) :
    collapseWsAux false (a :: t) = ' ' :: collapseWsAux true t := by
  rw [collapseWsAux_cons, if_pos ha, if_neg (by simp)]

theorem collapse_cons_ws_true {a : Char} (t : List Char) (ha : isWs a = true) :
    collapseWsAux true (a :: t) = collapseWsAux true t := by
  rw [collapseWsAux_cons, if_pos ha, if_pos rfl]

theorem collapse_cons_not_ws (prev : Bool) {a : Char} (t : List Char) (ha : isWs a = false) :
    collapseWsAux prev (a :: t) = a :: collapseWsAux false t := by
  rw [collapseWsAux_cons, if_neg (by simp [ha])]

theorem collapse_idem (l : List Char) :
    collapseWsAux false (collapseWsAux false l) = collapseWsAux false l ∧
    collapseWsAux true (collapseWsAux true l) = collapseWsAux true l := by
  induction l with
  | nil => exact ⟨rfl, rfl⟩
  | cons a t ih =>
    by_cases ha : isWs a = true
    · constructor
      · rw [collapse_cons_ws t ha, collapse_cons_ws _ (by rfl), ih.2]
      · rw [collapse_cons_ws_true t ha, ih.2]
    · have ha2 : isWs a = false := by simpa using ha
      constructor
      · rw [collapse_cons_not_ws false t ha2, collapse_cons_not_ws false _ ha2, ih.1]
      · rw [collapse_cons_not_ws true t ha2, collapse_cons_not_ws true _ ha2, ih.1]

theorem collapse_head_of_not_ws {l : List Char} {c : Char}
    (h : l.head? = some c) (hc : isWs c = false) :
    (collapseWsAux false l).head? = some c := by
  cases l with
  | nil => exact absurd h (by simp)
  | cons a t =>
    obtain rfl : a = c := by simpa using h
    unfold collapseWsAux
    rw [if_neg (by simp [hc])]
    rfl

theorem collapse_getLast_of_not_ws :
    ∀ (l : List Char) (prev : Bool) (c : Char), l.getLast? = some c → isWs c = false →
      (collapseWsAux prev l).getLast? = some c := by
  intro l
  induction l with
  | nil => intro prev c h _; exact absurd h (by simp)
  | cons a t ih =>
    intro prev c h hc
    cases t with
    | nil =>
      obtain rfl : a = c := by simpa using h
      rw [collapse_cons_not_ws prev [] hc]
      rfl
    | cons b u =>
      rw [List.getLast?_cons_cons] at h
      have hrec : ∀ prev2, (collapseWsAux prev2 (b :: u)).getLast? = some c :=
        fun prev2 => ih prev2 c h hc
      have hne : ∀ prev2, collapseWsAux prev2 (b :: u) ≠ [] := by
        intro prev2 habs
        have := hrec prev2
        rw [habs] at this
        exact absurd this (by simp)
      by_cases ha : isWs a = true
      · cases prev with
        | true =>
          rw [collapse_cons_ws_true (b :: u) ha]
          exact hrec true
        | false =>
          rw [collapse_cons_ws (b :: u) ha]
          rcases hx : collapseWsAux true (b :: u) with - | ⟨x, xs⟩
          · exact absurd hx (hne true)
          · rw [List.getLast?_cons_cons, ← hx]
            exact hrec true
      · have ha2 : isWs a = false := by simpa using ha
        rw [collapse_cons_not_ws prev (b :: u) ha2]
        rcases hx : collapseWsAux false (b :: u) with - | ⟨x, xs⟩
        · exact absurd hx (hne false)
        · rw [List.getLast?_cons_cons, ← hx]
          exact hrec false

theorem dropWhile_ws_collapse :
    ∀ (l : List Char) (prev : Bool),
      (collapseWsAux prev l).dropWhile isWs = collapseWsAux false (l.dropWhile isWs) := by
  intro l
  induction l with
  | nil => intro prev; rfl
  | cons a t ih =>
    intro prev
    by_cases ha : isWs a = true
    · have hdrop : (a :: t).dropWhile isWs = t.dropWhile isWs := by
        rw [List.dropWhile_cons, if_pos ha]
      rw [hdrop]
      cases prev with
      | true =>
        rw [collapse_cons_ws_true t ha]
        exact ih true
      | false =>
        rw [collapse_cons_ws t ha]
        rw [List.dropWhile_cons, if_pos (by rfl)]
        exact ih true
    · have ha2 : isWs a = false := by simpa using ha
      rw [collapse_cons_not_ws prev t ha2]
      rw [List.dropWhile_cons, if_neg (by simp [ha2])]
      rw [List.dropWhile_cons, if_neg (by simp [ha2])]
      rw [collapse_cons_not_ws false t ha2]

theorem takeWhile_digit_collapse :
    ∀ (l : List Char),
      (collapseWsAux false l).takeWhile Char.isDigit = l.takeWhile Char.isDigit := by
  intro l
  induction l with
  | nil => rfl
  | cons a t ih =>
    by_cases ha : isWs a = true
    · rw [collapse_cons_ws t ha]
      rw [List.takeWhile_cons, if_neg (by decide)]
      rw [List.takeWhile_cons, if_neg (by simp [isDigit_false_of_isWs ha])]
    · have ha2 : isWs a = false := by simpa using ha
      rw [collapse_cons_not_ws false t ha2]
      rw [List.takeWhile_cons, List.takeWhile_cons]
      by_cases hd : Char.isDigit a = true
      · rw [if_pos hd, if_pos hd, ih]
      · rw [if_neg hd, if_neg hd]

theorem dropWhile_digit_collapse :
    ∀ (l : List Char),
      (collapseWsAux false l).dropWhile Char.isDigit =
        collapseWsAux false (l.dropWhile Char.isDigit) := by
  intro l
  induction l with
  | nil => rfl
  | cons a t ih =>
    by_cases ha : isWs a = true
    · rw [collapse_cons_ws t ha]
      rw [List.dropWhile_cons, if_neg (by decide)]
      rw [List.dropWhile_cons, if_neg (by simp [isDigit_false_of_isWs ha])]
      rw [collapse_cons_ws t ha]
    · have ha2 : isWs a = false := by simpa using ha
      rw [collapse_cons_not_ws false t ha2]
      rw [List.dropWhile_cons, List.dropWhile_cons]
      by_cases hd : Char.isDigit a = true
      · rw [if_pos hd, if_pos hd, ih]
      · rw [if_neg hd, if_neg hd]
        rw [collapse_cons_not_ws false t ha2]

theorem collapse_eq_iff_of_no_ws :
    ∀ (target l : List Char), (∀ c ∈ target, isWs c = false) →
      (collapseWsAux false l = target ↔ l = target) := by
  intro target l
  induction l generalizing target with
  | nil =>
    intro h
    constructor
    · intro he; exact he ▸ rfl
    · rintro rfl; rfl
  | cons a t ih =>
    intro h
    constructor
    · intro he
      by_cases ha : isWs a = true
      · rw [collapse_cons_ws t ha] at he
        have : (' ' : Char) ∈ target := he ▸ List.mem_cons_self _ _
        exact absurd (h ' ' this) (by decide)
      · have ha2 : isWs a = false := by simpa using ha
        rw [collapse_cons_not_ws false t ha2] at he
        cases target with
        | nil => exact absurd he (by simp)
        | cons b tb =>
          obtain ⟨rfl, he2⟩ : a = b ∧ collapseWsAux false t = tb := by
            have := List.cons.injEq a (collapseWsAux false t) b tb ▸ he
            exact ⟨this.1, this.2⟩
          rw [(ih tb fun c hc => h c (List.mem_cons_of_mem _ hc)).mp he2]
    · rintro rfl
      exact collapse_eq_self_of_no_ws h

theorem collapse_head_iff_of_not_ws {l : List Char} {x : Char} (hx : isWs x = false) :
    (collapseWsAux false l).head? = some x ↔ l.head? = some x := by
  cases l with
  | nil => simp [collapseWsAux]
  | cons a t =>
    by_cases ha : isWs a = true
    · rw [collapse_cons_ws t ha]
      simp only [List.head?_cons, Option.some.injEq]
      constructor
      · rintro rfl; exact absurd hx (by decide)
      · rintro rfl; exact absurd hx (by simp [ha])
    · have ha2 : isWs a = false := by simpa using ha
      rw [collapse_cons_not_ws false t ha2]
      simp

/-! ### Commutation of the `_clean_cell` matchers with whitespace collapsing

Each anchored matcher of `_clean_cell` is invariant under `collapseWs`:
the matchers skip whitespace exactly where `\s*` appears in the regex, and
every literal character they test is non-whitespace. -/

theorem head_dropWhile_false {p : Char → Bool} :
    ∀ {l xs : List Char} {x : Char}, l.dropWhile p = x :: xs → p x = false := by
  intro l
  induction l with
  | nil => intro xs x h; exact absurd h (by simp)
  | cons a t ih =>
    intro xs x h
    rw [List.dropWhile_cons] at h
    by_cases ha : p a = true
    · rw [if_pos ha] at h
      exact ih h
    · rw [if_neg ha] at h
      injection h with h1 h2
      subst h1
      simpa using ha

theorem mem_of_getLast? {l : List Char} {c : Char} (h : l.getLast? = some c) : c ∈ l := by
  rcases List.mem_getLast?_eq_getLast h with ⟨hh, rfl⟩
  exact List.getLast_mem hh

theorem contains_eq_false_of_not_mem {l : List Char} {c : Char} (h : c ∉ l) :
    l.contains c = false := by
  cases hb : l.contains c with
  | false => rfl
  | true => exact absurd (List.elem_iff.mp hb) h

theorem percentMatch_collapse (m : List Char) :
    percentMatch (collapseWsAux false m) = percentMatch m := by
  unfold percentMatch
  dsimp only
  rw [takeWhile_digit_collapse m, dropWhile_digit_collapse m]
  exact if_congr
    (and_congr_right'
      (collapse_eq_iff_of_no_ws ['%'] (m.dropWhile Char.isDigit) (by
        intro c hc
        obtain rfl : c = '%' := by simpa using hc
        decide)))
    rfl rfl

theorem parenDollarMatch_collapse (m : List Char) :
    parenDollarMatch (collapseWsAux false m) = parenDollarMatch m := by
  cases m with
  | nil => rfl
  | cons c1 t =>
    by_cases h1 : isWs c1 = true
    · rw [collapse_cons_ws t h1, parenDollarMatch_cons_ne (by decide : (' ' : Char) ≠ '('),
        parenDollarMatch_cons_ne
          (show c1 ≠ '(' from fun e => by rw [e] at h1; exact absurd h1 (by decide))]
    · have h1f : isWs c1 = false := by simpa using h1
      rw [collapse_cons_not_ws false t h1f]
      cases t with
      | nil => rfl
      | cons c2 u =>
        by_cases h2 : isWs c2 = true
        · rw [collapse_cons_ws u h2]
          unfold parenDollarMatch
          dsimp only
          rw [if_neg (show ¬(c1 = '(' ∧ (' ' : Char) = '$') from
              fun h => absurd h.2 (by decide)),
            if_neg (show ¬(c1 = '(' ∧ c2 = '$') from
              fun h => absurd (h.2 ▸ h2) (by decide))]
        · have h2f : isWs c2 = false := by simpa using h2
          rw [collapse_cons_not_ws false u h2f]
          by_cases hg : c1 = '(' ∧ c2 = '$'
          · unfold parenDollarMatch
            dsimp only
            rw [if_pos hg, if_pos hg]
            rw [dropWhile_ws_collapse u false,
              takeWhile_digit_collapse (u.dropWhile isWs),
              dropWhile_digit_collapse (u.dropWhile isWs),
              dropWhile_ws_collapse ((u.dropWhile isWs).dropWhile Char.isDigit) false]
            exact if_congr
              (and_congr_right'
                (collapse_eq_iff_of_no_ws [')']
                  (((u.dropWhile isWs).dropWhile Char.isDigit).dropWhile isWs) (by
                  intro c hc
                  obtain rfl : c = ')' := by simpa using hc
                  decide)))
              rfl rfl
          · unfold parenDollarMatch
            dsimp only
            rw [if_neg hg, if_neg hg]

theorem dollarMatch_collapse (m : List Char) :
    dollarMatch (collapseWsAux false m) = dollarMatch m := by
  cases m with
  | nil => rfl
  | cons c t =>
    by_cases h1 : isWs c = true
    · rw [collapse_cons_ws t h1, dollarMatch_cons_ne (by decide : (' ' : Char) ≠ '$'),
        dollarMatch_cons_ne
          (show c ≠ '$' from fun e => by rw [e] at h1; exact absurd h1 (by decide))]
    · have h1f : isWs c = false := by simpa using h1
      rw [collapse_cons_not_ws false t h1f]
      by_cases hc : c = '$'
      · subst hc
        unfold dollarMatch
        dsimp only
        rw [if_pos rfl, if_pos rfl]
        rw [dropWhile_ws_collapse t false]
        rcases hr1 : t.dropWhile isWs with - | ⟨x, xs⟩
        · rfl
        · have hx : isWs x = false := head_dropWhile_false hr1
          rw [collapse_cons_not_ws false xs hx]
          by_cases hxm : x = '-'
          · subst hxm
            rw [if_pos (show (('-' :: collapseWsAux false xs : List Char)).head? = some '-' from
                rfl),
              if_pos (show (('-' :: xs : List Char)).head? = some '-' from rfl)]
            dsimp only [List.tail_cons]
            rw [takeWhile_digit_collapse xs, dropWhile_digit_collapse xs]
            exact if_congr
              (and_congr_right'
                (collapse_eq_iff_of_no_ws [] (xs.dropWhile Char.isDigit) (by
                  intro c hc
                  exact absurd hc (List.not_mem_nil c))))
              rfl rfl
          · rw [if_neg (show ¬((x :: collapseWsAux false xs : List Char).head? = some '-') from
                fun e => hxm (by simpa using e)),
              if_neg (show ¬((x :: xs : List Char).head? = some '-') from
                fun e => hxm (by simpa using e))]
            rw [← collapse_cons_not_ws false xs hx]
            rw [takeWhile_digit_collapse (x :: xs), dropWhile_digit_collapse (x :: xs)]
            have hneg : decide ((collapseWsAux false (x :: xs)).head? = some '-') =
                decide ((x :: xs : List Char).head? = some '-') :=
              decide_eq_decide.mpr (collapse_head_iff_of_not_ws (by decide))
            rw [hneg]
            exact if_congr
              (and_congr_right'
                (collapse_eq_iff_of_no_ws [] ((x :: xs).dropWhile Char.isDigit) (by
                  intro c hc
                  exact absurd hc (List.not_mem_nil c))))
              rfl rfl
      · rw [dollarMatch_cons_ne hc, dollarMatch_cons_ne hc]

theorem zeroStage2_collapse (w : List Char) :
    (let r5 := (collapseWsAux false w).dropWhile isWs
     let r6 := if r5.head? = some '.' then r5.tail else r5
     let r7 := r6.dropWhile isWs
     decide (r7 = ['0', '0'])) =
    (let r5 := w.dropWhile isWs
     let r6 := if r5.head? = some '.' then r5.tail else r5
     let r7 := r6.dropWhile isWs
     decide (r7 = ['0', '0'])) := by
  dsimp only
  rw [dropWhile_ws_collapse w false]
  rcases h5 : w.dropWhile isWs with - | ⟨z, zs⟩
  · rfl
  · have hz : isWs z = false := head_dropWhile_false h5
    rw [collapse_cons_not_ws false zs hz]
    by_cases hzd : z = '.'
    · subst hzd
      rw [if_pos (show (('.' :: collapseWsAux false zs : List Char)).head? = some '.' from rfl),
        if_pos (show (('.' :: zs : List Char)).head? = some '.' from rfl)]
      dsimp only [List.tail_cons]
      rw [dropWhile_ws_collapse zs false]
      exact decide_eq_decide.mpr
        (collapse_eq_iff_of_no_ws ['0', '0'] (zs.dropWhile isWs) (by
          intro c hc
          rcases List.mem_cons.mp hc with rfl | hc2
          · decide
          · obtain rfl : c = '0' := by simpa using hc2
            decide))
    · rw [if_neg (show ¬((z :: collapseWsAux false zs : List Char).head? = some '.') from
          fun e => hzd (by simpa using e)),
        if_neg (show ¬((z :: zs : List Char).head? = some '.') from
          fun e => hzd (by simpa using e))]
      rw [← collapse_cons_not_ws false zs hz]
      rw [dropWhile_ws_collapse (z :: zs) false]
      rw [dropWhile_eq_self_of_head (fun c hc => by
        obtain rfl : z = c := by simpa using hc
        exact hz)]
      exact decide_eq_decide.mpr
        (collapse_eq_iff_of_no_ws ['0', '0'] (z :: zs) (by
          intro c hc
          rcases List.mem_cons.mp hc with rfl | hc2
          · decide
          · obtain rfl : c = '0' := by simpa using hc2
            decide))

theorem zeroStage1_collapse (w : List Char) :
    (match (collapseWsAux false w).dropWhile isWs with
     | c3 :: r4 =>
       if c3 = '0' then
         let r5 := r4.dropWhile isWs
         let r6 := if r5.head? = some '.' then r5.tail else r5
         let r7 := r6.dropWhile isWs
         decide (r7 = ['0', '0'])
       else false
     | [] => false) =
    (match w.dropWhile isWs with
     | c3 :: r4 =>
       if c3 = '0' then
         let r5 := r4.dropWhile isWs
         let r6 := if r5.head? = some '.' then r5.tail else r5
         let r7 := r6.dropWhile isWs
         decide (r7 = ['0', '0'])
       else false
     | [] => false) := by
  rw [dropWhile_ws_collapse w false]
  rcases h3 : w.dropWhile isWs with - | ⟨y, ys⟩
  · rfl
  · have hy : isWs y = false := head_dropWhile_false h3
    rw [collapse_cons_not_ws false ys hy]
    dsimp only
    by_cases hy0 : y = '0'
    · rw [if_pos hy0, if_pos hy0]
      exact zeroStage2_collapse ys
    · rw [if_neg hy0, if_neg hy0]

theorem zeroDollarMatch_collapse (m : List Char) :
    zeroDollarMatch (collapseWsAux false m) = zeroDollarMatch m := by
  cases m with
  | nil => rfl
  | cons c t =>
    by_cases h1 : isWs c = true
    · rw [collapse_cons_ws t h1, zeroDollarMatch_cons_ne (by decide : (' ' : Char) ≠ '$'),
        zeroDollarMatch_cons_ne
          (show c ≠ '$' from fun e => by rw [e] at h1; exact absurd h1 (by decide))]
    · have h1f : isWs c = false := by simpa using h1
      rw [collapse_cons_not_ws false t h1f]
      by_cases hc : c = '$'
      · subst hc
        unfold zeroDollarMatch
        dsimp only
        rw [if_pos rfl, if_pos rfl]
        rw [dropWhile_ws_collapse t false]
        rcases hr1 : t.dropWhile isWs with - | ⟨x, xs⟩
        · rfl
        · have hx : isWs x = false := head_dropWhile_false hr1
          rw [collapse_cons_not_ws false xs hx]
          by_cases hxm : x = '-'
          · subst hxm
            rw [if_pos (show (('-' :: collapseWsAux false xs : List Char)).head? = some '-' from
                rfl),
              if_pos (show (('-' :: xs : List Char)).head? = some '-' from rfl)]
            dsimp only [List.tail_cons]
            exact zeroStage1_collapse xs
          · rw [if_neg (show ¬((x :: collapseWsAux false xs : List Char).head? = some '-') from
                fun e => hxm (by simpa using e)),
              if_neg (show ¬((x :: xs : List Char).head? = some '-') from
                fun e => hxm (by simpa using e))]
            rw [← collapse_cons_not_ws false xs hx]
            exact zeroStage1_collapse (x :: xs)
      · rw [zeroDollarMatch_cons_ne hc, zeroDollarMatch_cons_ne hc]

/-! ### Character facts about `_fix_dollar` output -/

theorem digitChar_isDigit {n : Nat} (h : n < 10) : (digitChar n).isDigit = true := by
  interval_cases n <;> decide

theorem natDigitsAux_mem :
    ∀ (fuel n : Nat), n ≤ fuel → ∀ c ∈ natDigitsAux fuel n, Char.isDigit c = true := by
  intro fuel
  induction fuel with
  | zero =>
    intro n hn c hc
    obtain rfl : n = 0 := Nat.le_zero.mp hn
    obtain rfl : c = digitChar 0 := by simpa [natDigitsAux] using hc
    decide
  | succ f ih =>
    intro n hn c hc
    unfold natDigitsAux at hc
    by_cases h10 : n < 10
    · rw [if_pos h10] at hc
      obtain rfl : c = digitChar n := by simpa using hc
      exact digitChar_isDigit h10
    · rw [if_neg h10] at hc
      rcases List.mem_append.mp hc with hm | hm
      · have hlt : n / 10 < n := Nat.div_lt_self (by omega) (by omega)
        exact ih (n / 10) (by omega) c hm
      · obtain rfl : c = digitChar (n % 10) := by simpa using hm
        exact digitChar_isDigit (Nat.mod_lt n (by omega))

theorem natDigits_mem (n : Nat) : ∀ c ∈ natDigits n, Char.isDigit c = true :=
  natDigitsAux_mem n n le_rfl

theorem insertCommasRev_mem :
    ∀ (l : List Char) (c : Char), c ∈ insertCommasRev l → c ∈ l ∨ c = ',' := by
  intro l
  induction l using insertCommasRev.induct with
  | case1 a b c d rest ih =>
    intro x hx
    unfold insertCommasRev at hx
    simp only [List.mem_cons] at hx ⊢
    rcases hx with rfl | rfl | rfl | h
    · exact Or.inl (Or.inl rfl)
    · exact Or.inl (Or.inr (Or.inl rfl))
    · exact Or.inl (Or.inr (Or.inr (Or.inl rfl)))
    · rcases h with rfl | h2
      · exact Or.inr rfl
      · rcases ih x h2 with hm | hm
        · rcases List.mem_cons.mp hm with rfl | hm2
          · exact Or.inl (Or.inr (Or.inr (Or.inr (Or.inl rfl))))
          · exact Or.inl (Or.inr (Or.inr (Or.inr (Or.inr hm2))))
        · exact Or.inr hm
  | case2 l h =>
    intro x hx
    have heq : insertCommasRev l = l := by
      unfold insertCommasRev
      split
      · exact ((h _ _ _ _ _ rfl).elim : _)
      · rfl
    rw [heq] at hx
    exact Or.inl hx

theorem commaGroup_mem {n : Nat} {c : Char} (hc : c ∈ commaGroup n) :
    c = ',' ∨ Char.isDigit c = true := by
  unfold commaGroup at hc
  rw [List.mem_reverse] at hc
  rcases insertCommasRev_mem _ c hc with hm | hm
  · rw [List.mem_reverse] at hm
    exact Or.inr (natDigits_mem n c hm)
  · exact Or.inl hm

theorem zfill2_mem {l : List Char} {c : Char} (hc : c ∈ zfill2 l) : c = '0' ∨ c ∈ l := by
  unfold zfill2 at hc
  by_cases h : l.length < 2
  · rw [if_pos h] at hc
    rcases List.mem_append.mp hc with hm | hm
    · exact Or.inl (List.eq_of_mem_replicate hm)
    · exact Or.inr hm
  · rw [if_neg h] at hc
    exact Or.inr hc

theorem fixFormatted_mem (ds : List Char) (hdig : ∀ c ∈ ds, Char.isDigit c = true) :
    ∀ c ∈ (if ds.length ≤ 2 then '0' :: '.' :: zfill2 ds
      else commaGroup (digitsToNat (ds.take (ds.length - 2))) ++
        '.' :: ds.drop (ds.length - 2)),
      c = ',' ∨ c = '.' ∨ Char.isDigit c = true := by
  intro c hc
  by_cases h : ds.length ≤ 2
  · rw [if_pos h] at hc
    rcases List.mem_cons.mp hc with rfl | hc2
    · exact Or.inr (Or.inr (by decide))
    · rcases List.mem_cons.mp hc2 with rfl | hc3
      · exact Or.inr (Or.inl rfl)
      · rcases zfill2_mem hc3 with rfl | hm
        · exact Or.inr (Or.inr (by decide))
        · exact Or.inr (Or.inr (hdig c hm))
  · rw [if_neg h] at hc
    rcases List.mem_append.mp hc with hm | hm
    · rcases commaGroup_mem hm with rfl | hd
      · exact Or.inl rfl
      · exact Or.inr (Or.inr hd)
    · rcases List.mem_cons.mp hm with rfl | hm2
      · exact Or.inr (Or.inl rfl)
      · exact Or.inr (Or.inr (hdig c (List.mem_of_mem_drop hm2)))

theorem fixFormatted_dot (ds : List Char) :
    '.' ∈ (if ds.length ≤ 2 then '0' :: '.' :: zfill2 ds
      else commaGroup (digitsToNat (ds.take (ds.length - 2))) ++
        '.' :: ds.drop (ds.length - 2)) := by
  by_cases h : ds.length ≤ 2
  · rw [if_pos h]
    exact List.mem_cons_of_mem _ (List.mem_cons_self _ _)
  · rw [if_neg h]
    exact List.mem_append.mpr (Or.inr (List.mem_cons_self _ _))

/-! ### What a successful match tells us about the captured digit run -/

theorem parenDollarMatch_some {s ds : List Char} (h : parenDollarMatch s = some ds) :
    ds ≠ [] ∧ ∀ c ∈ ds, Char.isDigit c = true := by
  unfold parenDollarMatch at h
  rcases s with - | ⟨c1, - | ⟨c2, rest⟩⟩
  · exact Option.noConfusion h
  · exact Option.noConfusion h
  · dsimp only at h
    by_cases hg : c1 = '(' ∧ c2 = '$'
    · rw [if_pos hg] at h
      by_cases hcond : (rest.dropWhile isWs).takeWhile Char.isDigit ≠ [] ∧
          ((rest.dropWhile isWs).dropWhile Char.isDigit).dropWhile isWs = [')']
      · rw [if_pos hcond] at h
        obtain rfl : (rest.dropWhile isWs).takeWhile Char.isDigit = ds := by
          simpa using h
        exact ⟨hcond.1, fun c hc => List.mem_takeWhile_imp hc⟩
      · rw [if_neg hcond] at h
        exact Option.noConfusion h
    · rw [if_neg hg] at h
      exact Option.noConfusion h

theorem dollarMatch_some {s : List Char} {neg : Bool} {ds : List Char}
    (h : dollarMatch s = some (neg, ds)) :
    ds ≠ [] ∧ ∀ c ∈ ds, Char.isDigit c = true := by
  unfold dollarMatch at h
  rcases s with - | ⟨c, rest⟩
  · exact Option.noConfusion h
  · dsimp only at h
    by_cases hc : c = '$'
    · rw [if_pos hc] at h
      set r2 := if (rest.dropWhile isWs).head? = some '-' then (rest.dropWhile isWs).tail
        else rest.dropWhile isWs with hr2
      by_cases hcond : r2.takeWhile Char.isDigit ≠ [] ∧ r2.dropWhile Char.isDigit = []
      · rw [if_pos hcond] at h
        have h2 := Option.some.inj h
        have hb : r2.takeWhile Char.isDigit = ds := congrArg Prod.snd h2
        subst hb
        exact ⟨hcond.1, fun c hcm => List.mem_takeWhile_imp hcm⟩
      · rw [if_neg hcond] at h
        exact Option.noConfusion h
    · rw [if_neg hc] at h
      exact Option.noConfusion h

/-! ### The head and last character of a stripped string are not whitespace -/

theorem rstripWs_head {y : List Char} {a : Char}
    (hh : (rstripWs y).head? = some a) : y.head? = some a := by
  have hs : y.reverse.dropWhile isWs <:+ y.reverse := List.dropWhile_suffix isWs
  obtain ⟨t, ht⟩ := hs
  have hy : y = rstripWs y ++ t.reverse := by
    have h2 := congrArg List.reverse ht
    rw [List.reverse_append, List.reverse_reverse] at h2
    exact h2.symm
  rcases hr : rstripWs y with - | ⟨b, bs⟩
  · rw [hr] at hh
    exact Option.noConfusion hh
  · rw [hr] at hh hy
    rw [hy]
    simpa using hh

theorem stripWs_head {w : List Char} {a : Char}
    (hh : (stripWs w).head? = some a) : isWs a = false := by
  unfold stripWs at hh
  have h2 := rstripWs_head hh
  rcases hd : w.dropWhile isWs with - | ⟨x, xs⟩
  · rw [hd] at h2
    exact Option.noConfusion h2
  · rw [hd] at h2
    obtain rfl : x = a := by simpa using h2
    exact head_dropWhile_false hd

theorem stripWs_getLast {w : List Char} {a : Char}
    (hh : (stripWs w).getLast? = some a) : isWs a = false := by
  unfold stripWs rstripWs at hh
  rw [List.getLast?_reverse] at hh
  rcases hd : (w.dropWhile isWs).reverse.dropWhile isWs with - | ⟨x, xs⟩
  · rw [hd] at hh
    exact Option.noConfusion hh
  · rw [hd] at hh
    obtain rfl : x = a := by simpa using hh
    exact head_dropWhile_false hd

/-! ### Re-cleaning the outputs of each `_clean_cell` branch -/

theorem mem_of_head? {l : List Char} {c : Char} (h : l.head? = some c) : c ∈ l := by
  cases l with
  | nil => exact Option.noConfusion h
  | cons a t =>
    obtain rfl : a = c := by simpa using h
    exact List.mem_cons_self a t

theorem dropWhile_append_of_mem_false {p : Char → Bool} {c : Char} (hp : p c = false) :
    ∀ (l r : List Char), c ∈ l → (l ++ r).dropWhile p = l.dropWhile p ++ r := by
  intro l
  induction l with
  | nil => intro r hm; exact absurd hm (List.not_mem_nil c)
  | cons a t ih =>
    intro r hm
    rw [List.cons_append, List.dropWhile_cons, List.dropWhile_cons]
    by_cases hpa : p a = true
    · rw [if_pos hpa, if_pos hpa]
      rcases List.mem_cons.mp hm with rfl | hm2
      · rw [hp] at hpa
        exact Bool.noConfusion hpa
      · exact ih r hm2
    · rw [if_neg hpa, if_neg hpa]
      rfl

theorem percent_nosplit_clean (ds : List Char) (hne : ds ≠ [])
    (hdig : ∀ c ∈ ds, Char.isDigit c = true) :
    cleanCellL (ds ++ ['%']) = some (ds ++ ['%']) := by
  obtain ⟨d, t, rfl⟩ : ∃ d t, ds = d :: t := by
    rcases ds with - | ⟨d, t⟩
    · exact absurd rfl hne
    · exact ⟨d, t, rfl⟩
  have hd : Char.isDigit d = true := hdig d (List.mem_cons_self _ _)
  show cleanCellL (d :: (t ++ ['%'])) = some (d :: (t ++ ['%']))
  have htdig : ∀ c ∈ t, Char.isDigit c = true :=
    fun c hc => hdig c (List.mem_cons_of_mem d hc)
  have hnw : ∀ c ∈ (d :: (t ++ ['%']) : List Char), isWs c = false := by
    intro c hc
    rcases List.mem_cons.mp hc with rfl | hc2
    · exact isWs_false_of_isDigit hd
    · rcases List.mem_append.mp hc2 with hm | hm
      · exact isWs_false_of_isDigit (htdig c hm)
      · obtain rfl : c = '%' := by simpa using hm
        decide
  have hnl : '\n' ∉ (d :: (t ++ ['%']) : List Char) :=
    fun hm => absurd (hnw _ hm) (by decide)
  have hstl := stripTrailingNl_of_not_mem hnl
  have hstrip : stripWs (d :: (t ++ ['%'])) = d :: (t ++ ['%']) :=
    stripWs_eq_self (fun c hc => hnw c (mem_of_head? hc))
      (fun c hc => hnw c (mem_of_getLast? hc))
  have hcont : (d :: (t ++ ['%']) : List Char).contains '\n' = false :=
    contains_eq_false_of_not_mem hnl
  have hperc : percentMatch (d :: (t ++ ['%'])) = some (d :: t) := by
    unfold percentMatch
    dsimp only
    rw [← List.cons_append, takeWhile_append_all hdig, dropWhile_append_all hdig]
    rw [show List.takeWhile Char.isDigit ['%'] = [] from rfl,
      show List.dropWhile Char.isDigit ['%'] = ['%'] from rfl, List.append_nil]
    rw [if_pos ⟨by simp, rfl⟩]
  unfold cleanCellL
  dsimp only
  rw [hstl, hstrip]
  rw [parenDollarMatch_cons_ne (ne_of_isDigit hd (by decide))]
  dsimp only
  rw [dollarMatch_cons_ne (ne_of_isDigit hd (by decide))]
  dsimp only
  rw [zeroDollarMatch_cons_ne (ne_of_isDigit hd (by decide))]
  rw [if_neg (by decide : ¬(false = true))]
  rw [hperc]
  dsimp only
  rw [if_neg (fun hcond => by
    rw [hcont] at hcond
    exact Bool.noConfusion hcond.1)]
  rfl

theorem percent_split_clean (ds : List Char) (h2 : 2 ≤ ds.length)
    (hdig : ∀ c ∈ ds, Char.isDigit c = true) :
    cleanCellL (ds.dropLast ++ '.' :: ds.getLastD '0' :: ['%']) =
      some (ds.dropLast ++ '.' :: ds.getLastD '0' :: ['%']) := by
  have hdsne : ds ≠ [] := by
    intro he
    rw [he] at h2
    exact absurd h2 (by decide)
  have hAlen : 0 < ds.dropLast.length := by
    rw [List.length_dropLast]
    omega
  obtain ⟨a, t, hA⟩ : ∃ a t, ds.dropLast = a :: t := by
    rcases hA : ds.dropLast with - | ⟨a, t⟩
    · rw [hA] at hAlen
      exact absurd hAlen (by simp)
    · exact ⟨a, t, rfl⟩
  have hL : Char.isDigit (ds.getLastD '0') = true := by
    rw [List.getLastD_eq_getLast? '0' ds]
    obtain ⟨g, hg⟩ : ∃ g, ds.getLast? = some g :=
      ⟨ds.getLast hdsne, List.getLast?_eq_getLast_of_ne_nil hdsne⟩
    rw [hg]
    exact hdig g (mem_of_getLast? hg)
  have hadig : Char.isDigit a = true :=
    hdig a ((List.dropLast_sublist ds).subset (by rw [hA]; exact List.mem_cons_self a t))
  have htdig : ∀ c ∈ t, Char.isDigit c = true := fun c hc =>
    hdig c ((List.dropLast_sublist ds).subset (by rw [hA]; exact List.mem_cons_of_mem a hc))
  rw [hA, List.cons_append]
  have hnw : ∀ c ∈ (a :: (t ++ '.' :: ds.getLastD '0' :: ['%']) : List Char),
      isWs c = false := by
    intro c hc
    rcases List.mem_cons.mp hc with rfl | hc2
    · exact isWs_false_of_isDigit hadig
    · rcases List.mem_append.mp hc2 with hm | hm
      · exact isWs_false_of_isDigit (htdig c hm)
      · rcases List.mem_cons.mp hm with rfl | hm2
        · decide
        · rcases List.mem_cons.mp hm2 with rfl | hm3
          · exact isWs_false_of_isDigit hL
          · obtain rfl : c = '%' := by simpa using hm3
            decide
  have hnl : '\n' ∉ (a :: (t ++ '.' :: ds.getLastD '0' :: ['%']) : List Char) :=
    fun hm => absurd (hnw _ hm) (by decide)
  have hstl := stripTrailingNl_of_not_mem hnl
  have hstrip : stripWs (a :: (t ++ '.' :: ds.getLastD '0' :: ['%'])) =
      a :: (t ++ '.' :: ds.getLastD '0' :: ['%']) :=
    stripWs_eq_self (fun c hc => hnw c (mem_of_head? hc))
      (fun c hc => hnw c (mem_of_getLast? hc))
  have hpc : percentMatch (a :: (t ++ '.' :: ds.getLastD '0' :: ['%'])) = none := by
    unfold percentMatch
    dsimp only
    rw [if_neg (fun hcond => by
      have hc2 := hcond.2
      rw [← List.cons_append,
        dropWhile_append_all (fun c hc => by
          rcases List.mem_cons.mp hc with rfl | hm
          · exact hadig
          · exact htdig c hm)] at hc2
      have hc3 : ('.' :: ds.getLastD '0' :: ['%'] : List Char) = ['%'] := hc2
      injection hc3 with hx hy
      exact absurd hx (by decide))]
  unfold cleanCellL
  dsimp only
  rw [hstl, hstrip]
  rw [parenDollarMatch_cons_ne (ne_of_isDigit hadig (by decide))]
  dsimp only
  rw [dollarMatch_cons_ne (ne_of_isDigit hadig (by decide))]
  dsimp only
  rw [zeroDollarMatch_cons_ne (ne_of_isDigit hadig (by decide))]
  rw [if_neg (by decide : ¬(false = true))]
  rw [hpc]
  dsimp only
  rw [show collapseWs (a :: (t ++ '.' :: ds.getLastD '0' :: ['%'])) =
      a :: (t ++ '.' :: ds.getLastD '0' :: ['%']) from collapse_eq_self_of_no_ws hnw]
  rw [if_neg (by simp)]

theorem paren_reclean (f : List Char)
    (hmem : ∀ c ∈ f, c = ',' ∨ c = '.' ∨ Char.isDigit c = true)
    (hdot : '.' ∈ f) :
    cleanCellL ('(' :: '$' :: (f ++ [')'])) = some ('(' :: '$' :: (f ++ [')'])) := by
  have hfnw : ∀ c ∈ f ++ [')'], isWs c = false := by
    intro c hc
    rcases List.mem_append.mp hc with hm | hm
    · rcases hmem c hm with rfl | rfl | hd
      · decide
      · decide
      · exact isWs_false_of_isDigit hd
    · obtain rfl : c = ')' := by simpa using hm
      decide
  have hnw : ∀ c ∈ ('(' :: '$' :: (f ++ [')']) : List Char), isWs c = false := by
    intro c hc
    rcases List.mem_cons.mp hc with rfl | hc2
    · decide
    · rcases List.mem_cons.mp hc2 with rfl | hc3
      · decide
      · exact hfnw c hc3
  have hnl : '\n' ∉ ('(' :: '$' :: (f ++ [')']) : List Char) :=
    fun hm => absurd (hnw _ hm) (by decide)
  have hstl := stripTrailingNl_of_not_mem hnl
  have hstrip : stripWs ('(' :: '$' :: (f ++ [')'])) = '(' :: '$' :: (f ++ [')']) :=
    stripWs_eq_self (fun c hc => hnw c (mem_of_head? hc))
      (fun c hc => hnw c (mem_of_getLast? hc))
  obtain ⟨x, xs, hfdx, hxalt⟩ :
      ∃ x xs, f.dropWhile Char.isDigit = x :: xs ∧ (x = ',' ∨ x = '.') := by
    rcases he : f.dropWhile Char.isDigit with - | ⟨x, xs⟩
    · have hdm := mem_dropWhile_of_mem hdot (show Char.isDigit '.' = false from rfl)
      rw [he] at hdm
      exact absurd hdm (List.not_mem_nil _)
    · refine ⟨x, xs, rfl, ?_⟩
      have hxd : Char.isDigit x = false := head_dropWhile_false he
      have hxm : x ∈ f := (List.dropWhile_sublist Char.isDigit).subset
        (by rw [he]; exact List.mem_cons_self _ _)
      rcases hmem x hxm with rfl | rfl | hd
      · exact Or.inl rfl
      · exact Or.inr rfl
      · rw [hd] at hxd
        exact Bool.noConfusion hxd
  have hxws : isWs x = false := by rcases hxalt with rfl | rfl <;> decide
  have hxne : x ≠ ')' := by rcases hxalt with rfl | rfl <;> decide
  have hpm : parenDollarMatch ('(' :: '$' :: (f ++ [')'])) = none := by
    unfold parenDollarMatch
    dsimp only
    rw [if_pos ⟨rfl, rfl⟩]
    rw [dropWhile_eq_self_of_all hfnw]
    rw [dropWhile_append_of_mem_false (show Char.isDigit '.' = false from rfl) f [')'] hdot]
    rw [hfdx, List.cons_append]
    rw [dropWhile_eq_self_of_head (fun c hc => by
      obtain rfl : x = c := by simpa using hc
      exact hxws)]
    rw [if_neg (fun hcond => by
      have hc2 := hcond.2
      injection hc2 with hx1 hx2
      exact hxne hx1)]
  have hpc : percentMatch ('(' :: '$' :: (f ++ [')'])) = none := by
    unfold percentMatch
    dsimp only
    rw [if_neg (fun hcond => hcond.1 rfl)]
  unfold cleanCellL
  dsimp only
  rw [hstl, hstrip]
  rw [hpm]
  dsimp only
  rw [dollarMatch_cons_ne (by decide : ('(' : Char) ≠ '$')]
  dsimp only
  rw [zeroDollarMatch_cons_ne (by decide : ('(' : Char) ≠ '$')]
  rw [if_neg (by decide : ¬(false = true))]
  rw [hpc]
  dsimp only
  rw [show collapseWs ('(' :: '$' :: (f ++ [')'])) = '(' :: '$' :: (f ++ [')']) from
    collapse_eq_self_of_no_ws hnw]
  rw [if_neg (by simp)]

theorem dollar_reclean (f : List Char)
    (hmem : ∀ c ∈ f, c = ',' ∨ c = '.' ∨ Char.isDigit c = true)
    (hdot : '.' ∈ f)
    (hnz : f ≠ ['0', '.', '0', '0']) :
    cleanCellL ('$' :: f) = some ('$' :: f) := by
  have hfne : f ≠ [] := by
    intro he
    rw [he] at hdot
    exact absurd hdot (List.not_mem_nil _)
  obtain ⟨a, f1, rfl⟩ : ∃ a t, f = a :: t := by
    rcases f with - | ⟨a, t⟩
    · exact absurd rfl hfne
    · exact ⟨a, t, rfl⟩
  have hfnw : ∀ c ∈ (a :: f1 : List Char), isWs c = false := by
    intro c hc
    rcases hmem c hc with rfl | rfl | hd
    · decide
    · decide
    · exact isWs_false_of_isDigit hd
  have hane : a ≠ '-' := by
    rcases hmem a (List.mem_cons_self a f1) with rfl | rfl | hd
    · decide
    · decide
    · exact ne_of_isDigit hd (by decide)
  have hnw : ∀ c ∈ ('$' :: a :: f1 : List Char), isWs c = false := by
    intro c hc
    rcases List.mem_cons.mp hc with rfl | hc2
    · decide
    · exact hfnw c hc2
  have hnl : '\n' ∉ ('$' :: a :: f1 : List Char) :=
    fun hm => absurd (hnw _ hm) (by decide)
  have hstl := stripTrailingNl_of_not_mem hnl
  have hstrip : stripWs ('$' :: a :: f1) = '$' :: a :: f1 :=
    stripWs_eq_self (fun c hc => hnw c (mem_of_head? hc))
      (fun c hc => hnw c (mem_of_getLast? hc))
  have hdm : dollarMatch ('$' :: a :: f1) = none := by
    unfold dollarMatch
    dsimp only
    rw [if_pos rfl]
    rw [dropWhile_eq_self_of_all hfnw]
    rw [if_neg (show ¬((a :: f1 : List Char).head? = some '-') from
      fun e => hane (by simpa using e))]
    rw [if_neg (fun hcond => by
      have hd2 := mem_dropWhile_of_mem hdot (show Char.isDigit '.' = false from rfl)
      rw [hcond.2] at hd2
      exact absurd hd2 (List.not_mem_nil _))]
  have hzm : zeroDollarMatch ('$' :: a :: f1) = false := by
    unfold zeroDollarMatch
    dsimp only
    rw [if_pos rfl]
    rw [dropWhile_eq_self_of_all hfnw]
    rw [if_neg (show ¬((a :: f1 : List Char).head? = some '-') from
      fun e => hane (by simpa using e))]
    rw [dropWhile_eq_self_of_all hfnw]
    dsimp only
    by_cases ha0 : a = '0'
    · subst ha0
      rw [if_pos rfl]
      have hf1nw : ∀ c ∈ f1, isWs c = false :=
        fun c hc => hfnw c (List.mem_cons_of_mem _ hc)
      rw [dropWhile_eq_self_of_all hf1nw]
      by_cases hdot1 : f1.head? = some '.'
      · obtain ⟨f2, rfl⟩ : ∃ t, f1 = '.' :: t := by
          rcases f1 with - | ⟨b, t⟩
          · exact absurd hdot1 (by simp)
          · obtain rfl : b = '.' := by simpa using hdot1
            exact ⟨t, rfl⟩
        rw [if_pos (show (('.' :: f2 : List Char)).head? = some '.' from rfl)]
        dsimp only [List.tail_cons]
        rw [dropWhile_eq_self_of_all (fun c hc =>
          hf1nw c (List.mem_cons_of_mem _ hc))]
        exact decide_eq_false (fun he => hnz (by rw [he]))
      · rw [if_neg hdot1]
        rw [dropWhile_eq_self_of_all hf1nw]
        have hne2 : f1 ≠ ['0', '0'] := by
          intro he
          rw [he] at hdot
          exact absurd hdot (by decide)
        exact decide_eq_false hne2
    · rw [if_neg ha0]
  have hpc : percentMatch ('$' :: a :: f1) = none := by
    unfold percentMatch
    dsimp only
    rw [if_neg (fun hcond => hcond.1 rfl)]
  unfold cleanCellL
  dsimp only
  rw [hstl, hstrip]
  rw [parenDollarMatch_cons_ne (by decide : ('$' : Char) ≠ '(')]
  dsimp only
  rw [hdm]
  dsimp only
  rw [hzm]
  rw [if_neg (by decide : ¬(false = true))]
  rw [hpc]
  dsimp only
  rw [show collapseWs ('$' :: a :: f1) = '$' :: a :: f1 from collapse_eq_self_of_no_ws hnw]
  rw [if_neg (by simp)]

theorem fixDollarL_clean (ds : List Char) (neg : Bool)
    (hdig : ∀ c ∈ ds, Char.isDigit c = true) :
    cleanCellL (fixDollarL ds neg) = some (fixDollarL ds neg) := by
  have hmem := fixFormatted_mem ds hdig
  have hdot := fixFormatted_dot ds
  unfold fixDollarL
  dsimp only
  cases neg with
  | true =>
    rw [if_pos rfl]
    exact paren_reclean _ hmem hdot
  | false =>
    rw [if_neg (by decide : ¬(false = true))]
    by_cases hz : (if ds.length ≤ 2 then '0' :: '.' :: zfill2 ds
        else commaGroup (digitsToNat (ds.take (ds.length - 2))) ++
          '.' :: ds.drop (ds.length - 2)) = ['0', '.', '0', '0']
    · rw [hz]
      decide
    · exact dollar_reclean _ hmem hdot hz

theorem general_reclean (w : List Char)
    (h1 : parenDollarMatch (stripWs w) = none)
    (h2 : dollarMatch (stripWs w) = none)
    (h3 : zeroDollarMatch (stripWs w) = false)
    (h4 : percentMatch (stripWs w) = none)
    (hne : collapseWsAux false (stripWs w) ≠ []) :
    cleanCellL (collapseWsAux false (stripWs w)) =
      some (collapseWsAux false (stripWs w)) := by
  have hstne : stripWs w ≠ [] := by
    intro he
    rw [he] at hne
    exact hne rfl
  obtain ⟨a, t, hst⟩ : ∃ a t, stripWs w = a :: t := by
    rcases he : stripWs w with - | ⟨a, t⟩
    · exact absurd he hstne
    · exact ⟨a, t, rfl⟩
  have hahead : isWs a = false := stripWs_head (by rw [hst]; rfl)
  obtain ⟨g, hg⟩ : ∃ g, (stripWs w).getLast? = some g := by
    rw [hst]
    exact ⟨(a :: t).getLast (by simp), List.getLast?_eq_getLast_of_ne_nil (by simp)⟩
  have hglast : isWs g = false := stripWs_getLast hg
  have hch : (collapseWsAux false (stripWs w)).head? = some a := by
    rw [hst, collapse_cons_not_ws false t hahead]
    rfl
  have hcl : (collapseWsAux false (stripWs w)).getLast? = some g :=
    collapse_getLast_of_not_ws (stripWs w) false g hg hglast
  have hnl : '\n' ∉ collapseWsAux false (stripWs w) := by
    intro hm
    have hsp := mem_collapse_ws_eq_space false (stripWs w) '\n' hm (by decide)
    exact absurd hsp (by decide)
  have hstl := stripTrailingNl_of_not_mem hnl
  have hstrip : stripWs (collapseWsAux false (stripWs w)) = collapseWsAux false (stripWs w) :=
    stripWs_eq_self
      (fun c hcc => by
        rw [hch] at hcc
        obtain rfl : a = c := Option.some.inj hcc
        exact hahead)
      (fun c hcc => by
        rw [hcl] at hcc
        obtain rfl : g = c := Option.some.inj hcc
        exact hglast)
  unfold cleanCellL
  dsimp only
  rw [hstl, hstrip]
  rw [parenDollarMatch_collapse (stripWs w), h1]
  dsimp only
  rw [dollarMatch_collapse (stripWs w), h2]
  dsimp only
  rw [zeroDollarMatch_collapse (stripWs w), h3]
  rw [if_neg (by decide : ¬(false = true))]
  rw [percentMatch_collapse (stripWs w), h4]
  dsimp only
  rw [show collapseWs (collapseWsAux false (stripWs w)) = collapseWsAux false (stripWs w) from
    (collapse_idem (stripWs w)).1]
  rw [if_neg hne]

theorem cleanCellL_idem {l out : List Char} (h : cleanCellL l = some out) :
    cleanCellL out = some out := by
  unfold cleanCellL at h
  dsimp only at h
  rcases hp : parenDollarMatch (stripWs (stripTrailingNl l)) with - | ds
  · rw [hp] at h
    dsimp only at h
    rcases hd : dollarMatch (stripWs (stripTrailingNl l)) with - | ⟨neg, ds⟩
    · rw [hd] at h
      dsimp only at h
      by_cases hz : zeroDollarMatch (stripWs (stripTrailingNl l)) = true
      · rw [if_pos hz] at h
        obtain rfl : (['$', '0', '.', '0', '0'] : List Char) = out := Option.some.inj h
        decide
      · rw [if_neg hz] at h
        have hz2 : zeroDollarMatch (stripWs (stripTrailingNl l)) = false := by
          simpa using hz
        rcases hpc : percentMatch (stripWs (stripTrailingNl l)) with - | ds
        · rw [hpc] at h
          dsimp only at h
          by_cases hce : collapseWs (stripWs (stripTrailingNl l)) = []
          · rw [if_pos hce] at h
            exact Option.noConfusion h
          · rw [if_neg hce] at h
            obtain rfl : collapseWs (stripWs (stripTrailingNl l)) = out := Option.some.inj h
            exact general_reclean (stripTrailingNl l) hp hd hz2 hpc hce
        · rw [hpc] at h
          dsimp only at h
          obtain ⟨hdne, hddig, hshape⟩ := percentMatch_some hpc
          by_cases hcond : l.contains '\n' = true ∧ 2 ≤ ds.length
          · rw [if_pos hcond] at h
            obtain rfl : ds.dropLast ++ '.' :: ds.getLastD '0' :: ['%'] = out :=
              Option.some.inj h
            exact percent_split_clean ds hcond.2 hddig
          · rw [if_neg hcond] at h
            obtain rfl : ds ++ ['%'] = out := Option.some.inj h
            exact percent_nosplit_clean ds hdne hddig
    · rw [hd] at h
      dsimp only at h
      obtain rfl : fixDollarL ds neg = out := Option.some.inj h
      exact fixDollarL_clean ds neg (dollarMatch_some hd).2
  · rw [hp] at h
    dsimp only at h
    obtain rfl : fixDollarL ds true = out := Option.some.inj h
    exact fixDollarL_clean ds true (parenDollarMatch_some hp).2

/-- **C9**: Cell normalization is idempotent: for every cell value `v`
(string or `None`), `_clean_cell(_clean_cell(v)) = _clean_cell(v)`; in
particular the already-normalized cells `"$12.34"` and `"85%"` are
returned unchanged. -/
theorem c9_clean_cell_idempotent :
    (∀ v : Cell, cleanCell (cleanCell v) = cleanCell v) ∧
      cleanCell (some "$12.34") = some "$12.34" ∧
      cleanCell (some "85%") = some "85%" := by
  refine ⟨?_, by decide, by decide⟩
  intro v
  cases v with
  | none => rfl
  | some s =>
    rcases hc : cleanCellL s.data with - | out
    · have h1 : cleanCell (some s) = none := by
        unfold cleanCell
        dsimp only [Option.bind]
        rw [hc]
        rfl
      rw [h1]
      rfl
    · have h1 : cleanCell (some s) = some out.asString := by
        unfold cleanCell
        dsimp only [Option.bind]
        rw [hc]
        rfl
      rw [h1]
      have h2 : cleanCellL (out.asString).data = some out := by
        have hdata : (out.asString).data = out := rfl
        rw [hdata]
        exact cleanCellL_idem hc
      unfold cleanCell
      dsimp only [Option.bind]
      rw [h2]
      rfl

end Pdf
